import Mathlib

/-!
Verification development for the labrador-ldpc-c decoder core
(`src/ldpc_decoder.c`).

The decoder functions are shallowly embedded: packed byte buffers become
`List ℕ` (one element per byte, values kept below 256 where it matters,
with uint8 arithmetic written out as `% 256`), float buffers become
`List ℚ` (exact arithmetic standing in for IEEE-754 single precision),
and every C loop becomes a fold or fuel-indexed recursion with the same
structure.  Out-of-range writes are no-ops (`List.set` semantics), which
models the contract that behaviour is defined only when buffer sizes meet
the documented minimums.

The code tables and graph builder (`ldpc_codes.c`) are not part of the
given sources, only their header; the decoders receive the sparse graph
arrays `ci/cs/vi/vs` as parameters, so the development quantifies over
those arrays, constrained by the well-formedness guarantees the spec
gives for the builder output.
-/

namespace Labrador

/-- Available LDPC codes, from the `ldpc_code` enum in `ldpc_codes.h`:
a sentinel plus one value per supported (n, k) pair. -/
inductive LdpcCode where
  | noCode
  | n128k64
  | n256k128
  | n512k256
  | n1280k1024
  | n1536k1024
  | n2048k1024
deriving DecidableEq

/-- Code parameters used by the decoder: block length n, data length k,
punctured bits p, and total Tanner-graph edge count s.  The sub-matrix
size m and circulant block size b are omitted (the decoder never asks
for them). -/
structure Params where
  n : ℕ
  k : ℕ
  p : ℕ
  s : ℕ
deriving DecidableEq

/-- Modelled from the spec: `ldpc_codes_get_params` lives in
`ldpc_codes.c`, which is not among the given sources.  The parameter
table is reconstructed from spec §1 (code list, puncturing) and the
buffer-size table in the `ldpc_codes.h` comment (`ci`,`vi` length s;
`cs` length n−k+p+1; `vs` length n+p+1).  The sentinel maps to all
zeroes per spec §4.1. -/
def ldpc_codes_get_params : LdpcCode → Params
  | .noCode => ⟨0, 0, 0, 0⟩
  | .n128k64 => ⟨128, 64, 0, 512⟩
  | .n256k128 => ⟨256, 128, 0, 1024⟩
  | .n512k256 => ⟨512, 256, 0, 2048⟩
  | .n1280k1024 => ⟨1280, 1024, 128, 4992⟩
  | .n1536k1024 => ⟨1536, 1024, 256, 5888⟩
  | .n2048k1024 => ⟨2048, 1024, 512, 7680⟩

/-- Sparse Tanner-graph arrays as passed to every decoder: `ci`/`cs`
index the graph by check node, `vi`/`vs` by variable node. -/
structure Graph where
  ci : List ℕ
  cs : List ℕ
  vi : List ℕ
  vs : List ℕ
deriving DecidableEq

/-- Array read `l[i]` for an index array; reads out of range give 0
(the theorems carry size hypotheses wherever the value matters). -/
def nth (l : List ℕ) (i : ℕ) : ℕ := l.getD i 0

/-- Array read for a float (here: rational) array. -/
def qnth (l : List ℚ) (i : ℕ) : ℚ := l.getD i 0

/-- Bit read `(buf[i/8] >> (7-(i%8))) & 1`, the MSB-first convention
used throughout the C code. -/
def getBit (buf : List ℕ) (i : ℕ) : ℕ := (nth buf (i / 8) >>> (7 - i % 8)) &&& 1

/-- Byte update `buf[i/8] |= 1 << (7-(i%8))`. -/
def setBitOne (buf : List ℕ) (i : ℕ) : List ℕ :=
  buf.set (i / 8) (nth buf (i / 8) ||| (1 <<< (7 - i % 8)))

/-- Byte update `buf[i/8] &= ~(1 << (7-(i%8)))`; on a uint8 the
complement of the mask is `255 - 2^(7-(i%8))`. -/
def clearBit (buf : List ℕ) (i : ℕ) : List ℕ :=
  buf.set (i / 8) (nth buf (i / 8) &&& (255 - (1 <<< (7 - i % 8))))

/-- Byte update `buf[i/8] ^= 1 << (7-(i%8))`. -/
def flipBit (buf : List ℕ) (i : ℕ) : List ℕ :=
  buf.set (i / 8) (nth buf (i / 8) ^^^ (1 <<< (7 - i % 8)))

/-- Model of `memcpy(dst, src, m)` for byte buffers. -/
def copyPrefix (src dst : List ℕ) (m : ℕ) : List ℕ := src.take m ++ dst.drop m

/-- Positions `[cs[i], cs[i+1])` of check i's edges inside `ci`. -/
def checkPositions (G : Graph) (i : ℕ) : List ℕ :=
  List.range' (nth G.cs i) (nth G.cs (i + 1) - nth G.cs i)

/-- Variable-node neighbours of check i: `ci[cs[i]..cs[i+1])`. -/
def checkSlice (G : Graph) (i : ℕ) : List ℕ := (checkPositions G i).map (nth G.ci)

/-- Positions `[vs[a], vs[a+1])` of variable a's edges inside `vi`. -/
def varPositions (G : Graph) (a : ℕ) : List ℕ :=
  List.range' (nth G.vs a) (nth G.vs (a + 1) - nth G.vs a)

/-- Check-node neighbours of variable a: `vi[vs[a]..vs[a+1])`. -/
def varSlice (G : Graph) (a : ℕ) : List ℕ := (varPositions G a).map (nth G.vi)

/-! ## Bit-flipping decoder (`ldpc_decode_bf`) -/

/-- Parity sum of check i (`parity += (output[a/8] >> (7-(a%8))) & 1`
over the check's neighbours; an `int` in C, so no wrap-around). -/
def checkParity (G : Graph) (out : List ℕ) (i : ℕ) : ℕ :=
  (checkSlice G i).foldl (fun pa a => pa + getBit out a) 0

/-- Increment pass `violations[a]++` for every a in `targets`
(violations is a uint8 buffer, hence the `% 256`). -/
def incViolations (viol : List ℕ) (targets : List ℕ) : List ℕ :=
  targets.foldl (fun v a => v.set a ((nth v a + 1) % 256)) viol

/-- One round's violation counters: the working buffer's first n+p
bytes are cleared, then every odd-parity check increments the counter
of each of its neighbours. -/
def computeViolations (P : Params) (G : Graph) (working out : List ℕ) : List ℕ :=
  (List.range (P.n - P.k + P.p)).foldl
    (fun viol i =>
      if checkParity G out i % 2 ≠ 0 then incViolations viol (checkSlice G i) else viol)
    (List.replicate (P.n + P.p) 0 ++ working.drop (P.n + P.p))

/-- Maximum of the violation counters over variable nodes 0..n+p. -/
def maxViolations (P : Params) (viol : List ℕ) : ℕ :=
  (List.range (P.n + P.p)).foldl (fun m a => if nth viol a > m then nth viol a else m) 0

/-- Flip pass: every variable node whose counter equals the maximum has
its output bit flipped. -/
def bfFlip (P : Params) (viol : List ℕ) (maxV : ℕ) (out : List ℕ) : List ℕ :=
  (List.range (P.n + P.p)).foldl
    (fun o a => if nth viol a = maxV then flipBit o a else o) out

/-- Main loop of `ldpc_decode_bf`, structured on remaining fuel
(max_iters = 20 at the call site).  Returns (success, iterations run,
output, working buffer contents). -/
def bfLoop (P : Params) (G : Graph) : List ℕ → List ℕ → ℕ → Bool × ℕ × List ℕ × List ℕ
  | out, working, 0 => (false, 0, out, working)
  | out, working, fuel + 1 =>
    let viol := computeViolations P G working out
    let maxV := maxViolations P viol
    if maxV = 0 then (true, 0, out, viol)
    else
      let r := bfLoop P G (bfFlip P viol maxV out) viol fuel
      (r.1, r.2.1 + 1, r.2.2)

/-! ## Erasure pre-decoder (`ldpc_decode_erasures`) -/

/-- State of the erasure decoder: output bytes, erasure flags
(the working buffer, one byte per bit), and the bits_fixed counter. -/
structure ErasureState where
  out : List ℕ
  erasures : List ℕ
  fixed : ℕ
deriving DecidableEq

/-- Inner scan of one check's neighbours for the erasure decoder:
skips the punctured bit a under consideration, aborts (returns `none`)
as soon as another erased neighbour is seen, and otherwise accumulates
the parity of the remaining neighbours (a uint8 in C, hence `% 256`). -/
def scanCheck (out erasures : List ℕ) (a : ℕ) : List ℕ → ℕ → Option ℕ
  | [], parity => some parity
  | b :: rest, parity =>
    if b = a then scanCheck out erasures a rest parity
    else if nth erasures b ≠ 0 then none
    else scanCheck out erasures a rest ((parity + getBit out b) % 256)

/-- Vote total for erased bit a: each neighbouring check with no other
erasure votes +1 when the other neighbours' parity is odd and −1 when
it is even (`votes` is an int8_t in C; variable-node degrees in the
supported codes are far below 127, so ℤ is a faithful model). -/
def erasureVotes (G : Graph) (out erasures : List ℕ) (a : ℕ) : ℤ :=
  (varPositions G a).foldl
    (fun votes ai =>
      match scanCheck out erasures a (checkSlice G (nth G.vi ai)) 0 with
      | Option.none => votes
      | Option.some parity => if parity % 2 = 1 then votes + 1 else votes - 1)
    0

/-- Per-bit body of the erasure decoder's inner loop: a still-erased
bit with a nonzero vote total is set to the majority value and marked
fixed; otherwise the state is unchanged. -/
def erasureStep (G : Graph) (st : ErasureState) (a : ℕ) : ErasureState :=
  if nth st.erasures a = 0 then st
  else
    let votes := erasureVotes G st.out st.erasures a
    if votes = 0 then st
    else
      { out := if votes > 0 then setBitOne st.out a else clearBit st.out a
        erasures := st.erasures.set a 0
        fixed := st.fixed + 1 }

/-- One full pass over the punctured bits n..n+p. -/
def erasureRound (P : Params) (G : Graph) (st : ErasureState) : ErasureState :=
  (List.range' P.n P.p).foldl (erasureStep G) st

/-- Outer loop of the erasure decoder: up to 16 rounds, stopping early
once every punctured bit has been fixed.  Returns the iteration count
together with the final state. -/
def erasureLoop (P : Params) (G : Graph) : ErasureState → ℕ → ℕ × ErasureState
  | st, 0 => (0, st)
  | st, fuel + 1 =>
    if st.fixed < P.p then
      let r := erasureLoop P G (erasureRound P G st) fuel
      (r.1 + 1, r.2)
    else (0, st)

/-- Initial erasure-decoder state: transmitted bits non-erased,
punctured bits erased with value 0, punctured output bytes cleared. -/
def erasureInit (P : Params) (out working : List ℕ) : ErasureState :=
  { out := out.take (P.n / 8) ++ List.replicate (P.p / 8) 0 ++ out.drop (P.n / 8 + P.p / 8)
    erasures := List.replicate P.n 0 ++ List.replicate P.p 1 ++ working.drop (P.n + P.p)
    fixed := 0 }

/-- Embedding of `ldpc_decode_erasures` (minus the NULL-pointer guard,
which has no counterpart for list buffers): returns iterations run,
final output and final working buffer. -/
def ldpc_decode_erasures (P : Params) (G : Graph) (out working : List ℕ) :
    ℕ × List ℕ × List ℕ :=
  let r := erasureLoop P G (erasureInit P out working) 16
  (r.1, r.2.out, r.2.erasures)

/-- Embedding of `ldpc_decode_bf`: copy the received bits into the
output, run the erasure pre-decoder when the code is punctured, then
run up to 20 bit-flipping rounds.  Returns (success, iters_run, output,
working). -/
def ldpc_decode_bf (code : LdpcCode) (G : Graph) (input output working : List ℕ) :
    Bool × ℕ × List ℕ × List ℕ :=
  if code = LdpcCode.noCode then (false, 0, output, working)
  else
    let P := ldpc_codes_get_params code
    let out0 := copyPrefix input output (P.n / 8)
    let e :=
      if 0 < P.p then ldpc_decode_erasures P G out0 working else (0, out0, working)
    let r := bfLoop P G e.2.1 e.2.2 20
    (r.1, e.1 + r.2.1, r.2.2)

/-! ## Message-passing decoder (`ldpc_decode_mp`) -/

/-- The C helper `sign(x) = (x>0.0f) - (x<0.0f)`. -/
def sign (x : ℚ) : ℚ := if x > 0 then 1 else if x < 0 then -1 else 0

/-- Value of FLT_MAX, the initialiser of the min accumulator. -/
def fltMax : ℚ := 2 ^ 128 - 2 ^ 104

/-- Scan `ci[cs[j]..cs[j+1])` for the first position holding variable
node a (the twin of the edge (j, a) in the check-indexed list); this is
the inner `for(j_b...)` loop with its `break`. -/
def findTwinU (G : Graph) (j a : ℕ) : Option ℕ :=
  (checkPositions G j).find? (fun jb => nth G.ci jb = a)

/-- Scan `vi[vs[b]..vs[b+1])` for the first position holding check node
i (the twin of the edge (i, b) in the variable-indexed list). -/
def findTwinV (G : Graph) (i b : ℕ) : Option ℕ :=
  (varPositions G b).find? (fun bj => nth G.vi bj = i)

/-- Recomputed (pre-self-correction) variable-to-check message: the
intrinsic LLR (0 for punctured nodes) plus every incoming
check-to-variable message u(j→a) except the one from check i itself. -/
def mpVRaw (P : Params) (G : Graph) (llrs u : List ℚ) (a i : ℕ) : ℚ :=
  (varSlice G a).foldl
    (fun acc j =>
      match findTwinU G j a with
      | Option.none => acc
      | Option.some jb => if j ≠ i then acc + qnth u jb else acc)
    (if a < P.n then qnth llrs a else 0)

/-- Self-correction rule (Savin 2009) applied to a freshly recomputed
message: a nonzero previous message whose sign differs from the new one
forces the new message to 0. -/
def selfCorrect (prev raw : ℚ) : ℚ :=
  if prev ≠ 0 ∧ sign raw ≠ sign prev then 0 else raw

/-- Per-edge variable-to-check update, combining recomputation and
self-correction; `e` is the edge's position in `vi`, whose check node
is `vi[e]`. -/
def mpVNew (P : Params) (G : Graph) (llrs u : List ℚ) (prev : ℚ) (a e : ℕ) : ℚ :=
  selfCorrect prev (mpVRaw P G llrs u a (nth G.vi e))

/-- Marginal llr_a as the C code accumulates it: starting from the
intrinsic LLR, the inner lookup loop adds every incoming u(j→a) once
per incident edge a_i (so the sum of incoming messages is added deg(a)
times in total — the embedding reproduces the source's double loop
as written). -/
def mpMarginal (P : Params) (G : Graph) (llrs u : List ℚ) (a : ℕ) : ℚ :=
  (varPositions G a).foldl
    (fun acc _ai =>
      (varSlice G a).foldl
        (fun acc2 j =>
          match findTwinU G j a with
          | Option.none => acc2
          | Option.some jb => acc2 + qnth u jb)
        acc)
    (if a < P.n then qnth llrs a else 0)

/-- Variable-node pass (P1) acting on the v array: every edge position
in every variable node's slice is overwritten with its updated
message.  The v updates read only u and the edge's own previous value,
so this fold is the C loop verbatim. -/
def mpP1V (P : Params) (G : Graph) (llrs u : List ℚ) (v : List ℚ) : List ℚ :=
  (List.range (P.n + P.p)).foldl
    (fun vv a =>
      (varPositions G a).foldl
        (fun vv2 ai => vv2.set ai (mpVNew P G llrs u (qnth vv2 ai) a ai)) vv)
    v

/-- Variable-node pass (P1) acting on the output buffer: the buffer's
first (n+p)/8 bytes are cleared at the top of the iteration, then each
variable node contributes its hard decision `llr_a ≤ 0` (an OR of 0
when llr_a > 0, which leaves the buffer unchanged).  In the C code this
is interleaved with the v updates of the same loop; the two touch
disjoint state, so they are embedded as separate folds. -/
def mpP1Out (P : Params) (G : Graph) (llrs u : List ℚ) (out : List ℕ) : List ℕ :=
  (List.range (P.n + P.p)).foldl
    (fun oo a => if mpMarginal P G llrs u a ≤ 0 then setBitOne oo a else oo)
    (List.replicate ((P.n + P.p) / 8) 0 ++ out.drop ((P.n + P.p) / 8))

/-- Check-to-variable message for edge position `ia` of check i with
variable node a: product of signs times minimum magnitude over the
other incoming variable-to-check messages, starting from (1, FLT_MAX). -/
def mpUNew (G : Graph) (v : List ℚ) (i a : ℕ) : ℚ :=
  let r :=
    (checkSlice G i).foldl
      (fun (acc : ℚ × ℚ) b =>
        if b = a then acc
        else
          match findTwinV G i b with
          | Option.none => acc
          | Option.some bj =>
            (acc.1 * sign (qnth v bj),
             if |qnth v bj| < acc.2 then |qnth v bj| else acc.2))
      (1, fltMax)
  r.1 * r.2

/-- Check-node pass (P2) acting on the u array. -/
def mpP2U (P : Params) (G : Graph) (v : List ℚ) (u : List ℚ) : List ℚ :=
  (List.range (P.n - P.k + P.p)).foldl
    (fun uu i =>
      (checkPositions G i).foldl
        (fun uu2 ia => uu2.set ia (mpUNew G v i (nth G.ci ia))) uu)
    u

/-- Global parity test of P2: true exactly when no check node sees odd
parity under the current hard decisions (`parity_ok` in the C code,
computed in the same loop as the u updates but reading only the output
buffer). -/
def mpParityOk (P : Params) (G : Graph) (out : List ℕ) : Bool :=
  (List.range (P.n - P.k + P.p)).all (fun i => checkParity G out i % 2 = 0)

/-- One full MP iteration on the state (u, v, out). -/
def mpIter (P : Params) (G : Graph) (llrs : List ℚ) :
    List ℚ × List ℚ × List ℕ → List ℚ × List ℚ × List ℕ
  | (u, v, out) =>
    let v2 := mpP1V P G llrs u v
    let out2 := mpP1Out P G llrs u out
    (mpP2U P G v2 u, v2, out2)

/-- Main loop of `ldpc_decode_mp`, structured on remaining fuel
(max_iters = 20 at the call site): run an iteration, stop with success
as soon as the hard decisions satisfy every check. -/
def mpLoop (P : Params) (G : Graph) (llrs : List ℚ) :
    List ℚ × List ℚ × List ℕ → ℕ → Bool × ℕ × List ℚ × List ℚ × List ℕ
  | st, 0 => (false, 0, st)
  | st, fuel + 1 =>
    let st2 := mpIter P G llrs st
    if mpParityOk P G st2.2.2 then (true, 0, st2)
    else
      let r := mpLoop P G llrs st2 fuel
      (r.1, r.2.1 + 1, r.2.2)

/-- Embedding of `ldpc_decode_mp`: the working buffer is split into u
(first s floats) and v (next s floats), both zeroed, then up to 20
iterations run.  Returns (success, iters_run, output, working), the
final working buffer being u followed by v followed by the untouched
tail. -/
def ldpc_decode_mp (code : LdpcCode) (G : Graph) (llrs : List ℚ)
    (output : List ℕ) (working : List ℚ) : Bool × ℕ × List ℕ × List ℚ :=
  if code = LdpcCode.noCode then (false, 0, output, working)
  else
    let P := ldpc_codes_get_params code
    let r := mpLoop P G llrs
      (List.replicate P.s 0, List.replicate P.s 0, output) 20
    (r.1, r.2.1, r.2.2.2.2, r.2.2.1 ++ r.2.2.2.1 ++ working.drop (2 * P.s))

/-! ## LLR conversion utilities -/

/-- Rational stand-in for the float value `logf(0.05f)`; the decoder
claims depend only on it being strictly negative. -/
def log005 : ℚ := -(2995732 : ℚ) / 1000000

/-- Embedding of `ldpc_decode_hard_to_llrs_ber`.  The C function takes
`ber` and computes `logf(ber)`; since the logarithm is transcendental
the embedding is parameterised directly by `logber = logf(ber)`.  Every
observed 1 bit maps to `logber`, every observed 0 bit to `-logber`. -/
def ldpc_decode_hard_to_llrs_ber (code : LdpcCode) (input : List ℕ)
    (llrs : List ℚ) (logber : ℚ) : List ℚ :=
  if code = LdpcCode.noCode then llrs
  else
    (List.range (ldpc_codes_get_params code).n).foldl
      (fun l i => l.set i (if getBit input i = 1 then logber else -logber)) llrs

/-- Embedding of `ldpc_decode_hard_to_llrs`: the BER defaults to 0.05. -/
def ldpc_decode_hard_to_llrs (code : LdpcCode) (input : List ℕ) (llrs : List ℚ) :
    List ℚ :=
  ldpc_decode_hard_to_llrs_ber code input llrs log005

/-- Embedding of `ldpc_decode_llrs_to_hard`: clear the first n/8 output
bytes, then set bit i for every LLR ≤ 0 (an OR of `(llrs[i] <= 0) <<
(7-(i%8))`, which is the identity when the LLR is positive). -/
def ldpc_decode_llrs_to_hard (code : LdpcCode) (llrs : List ℚ) (output : List ℕ) :
    List ℕ :=
  if code = LdpcCode.noCode then output
  else
    let n := (ldpc_codes_get_params code).n
    (List.range n).foldl
      (fun o i => if qnth llrs i ≤ 0 then setBitOne o i else o)
      (List.replicate (n / 8) 0 ++ output.drop (n / 8))

/-! ## Specification-level definitions and well-formedness predicates -/

/-- One bit-flipping round on the (output, working) pair: compute the
violation counters into the working buffer and flip every maximally
violated bit. -/
def bfStep (P : Params) (G : Graph) (s : List ℕ × List ℕ) : List ℕ × List ℕ :=
  let viol := computeViolations P G s.2 s.1
  (bfFlip P viol (maxViolations P viol) s.1, viol)

/-- Round maximum violation count at a given (output, working) pair. -/
def bfMaxV (P : Params) (G : Graph) (s : List ℕ × List ℕ) : ℕ :=
  maxViolations P (computeViolations P G s.2 s.1)

/-- A codeword state satisfies every parity check equation. -/
def allChecksOk (P : Params) (G : Graph) (out : List ℕ) : Prop :=
  ∀ i < P.n - P.k + P.p, checkParity G out i % 2 = 0

instance (P : Params) (G : Graph) (out : List ℕ) : Decidable (allChecksOk P G out) :=
  Nat.decidableBallLT _ _

/-- Specification-level violation count of variable node a: the number
of odd-parity checks it participates in (counted with multiplicity of
its occurrences in the check's slice, which is 1 for a well-formed
graph). -/
def specViolations (P : Params) (G : Graph) (out : List ℕ) (a : ℕ) : ℕ :=
  ((List.range (P.n - P.k + P.p)).map
    (fun i => if checkParity G out i % 2 ≠ 0 then (checkSlice G i).count a else 0)).sum

/-- Total number of occurrences of variable node a over all check
slices; an upper bound for `specViolations` independent of the
codeword. -/
def ciDegree (P : Params) (G : Graph) (a : ℕ) : ℕ :=
  ((List.range (P.n - P.k + P.p)).map (fun i => (checkSlice G i).count a)).sum

/-- Specification-level round maximum of the violation counts. -/
def specMaxViolations (P : Params) (G : Graph) (out : List ℕ) : ℕ :=
  (List.range (P.n + P.p)).foldl (fun m a => max m (specViolations P G out a)) 0

/-- Specification-level vote of one check for erased bit a: zero when
the check has another erased neighbour, otherwise +1 for odd parity of
the other neighbours and −1 for even. -/
def specVote (G : Graph) (out erasures : List ℕ) (a i : ℕ) : ℤ :=
  if ((checkSlice G i).filter (fun b => b ≠ a)).any (fun b => nth erasures b ≠ 0) then 0
  else if (((checkSlice G i).filter (fun b => b ≠ a)).map (getBit out)).sum % 2 = 1 then 1
  else -1

/-- Specification-level vote total over the checks adjacent to a. -/
def specVotes (G : Graph) (out erasures : List ℕ) (a : ℕ) : ℤ :=
  ((varPositions G a).map (fun ai => specVote G out erasures a (nth G.vi ai))).sum

/-- Check-slice offsets are locally monotone over the used checks. -/
def csMono (P : Params) (G : Graph) : Prop :=
  ∀ i < P.n - P.k + P.p, nth G.cs i ≤ nth G.cs (i + 1)

instance (P : Params) (G : Graph) : Decidable (csMono P G) :=
  Nat.decidableBallLT _ _

/-- Variable-slice offsets are locally monotone over the variables. -/
def vsMono (P : Params) (G : Graph) : Prop :=
  ∀ a < P.n + P.p, nth G.vs a ≤ nth G.vs (a + 1)

instance (P : Params) (G : Graph) : Decidable (vsMono P G) :=
  Nat.decidableBallLT _ _

/-- Entries of ci (variable-node indices) stay below n+p. -/
def ciInRange (P : Params) (G : Graph) : Prop :=
  ∀ e < P.s, nth G.ci e < P.n + P.p

instance (P : Params) (G : Graph) : Decidable (ciInRange P G) :=
  Nat.decidableBallLT _ _

/-- Every edge of the check-indexed list has a twin in the
variable-indexed list: for each position e of check i's slice there is
a position of variable `ci[e]`'s slice holding i (the dual-index
equivalence of spec §3, in the direction the MP check pass uses). -/
def hasTwinV (P : Params) (G : Graph) : Prop :=
  ∀ i < P.n - P.k + P.p, ∀ e ∈ checkPositions G i,
    ∃ e2 ∈ varPositions G (nth G.ci e), nth G.vi e2 = i

instance (P : Params) (G : Graph) : Decidable (hasTwinV P G) :=
  Nat.decidableBallLT _ _

/-- Every check involves at least two variable nodes (true of every
CCSDS code in the library; needed so a min-sum accumulator is never
left at FLT_MAX). -/
def checkDegreesAtLeastTwo (P : Params) (G : Graph) : Prop :=
  ∀ i < P.n - P.k + P.p, 2 ≤ nth G.cs (i + 1) - nth G.cs i

instance (P : Params) (G : Graph) : Decidable (checkDegreesAtLeastTwo P G) :=
  Nat.decidableBallLT _ _

/-- Largest initial LLR magnitude over the observed variable nodes. -/
def maxAbsLlr (P : Params) (llrs : List ℚ) : ℚ :=
  (List.range P.n).foldl (fun m a => max m |qnth llrs a|) 0

/-! ## Concrete instances used by the witness theorems -/

/-- Witness parameters: a length-8 unpunctured toy code with 8 checks
(k = 0) arranged in a cycle. -/
def wPcyc : Params := ⟨8, 0, 0, 16⟩

/-- Witness graph: check i joins variables i and i+1 mod 8. -/
def wGcyc : Graph :=
  { ci := [0, 1, 1, 2, 2, 3, 3, 4, 4, 5, 5, 6, 6, 7, 0, 7]
    cs := [0, 2, 4, 6, 8, 10, 12, 14, 16]
    vi := [0, 7, 0, 1, 1, 2, 2, 3, 3, 4, 4, 5, 5, 6, 6, 7]
    vs := [0, 2, 4, 6, 8, 10, 12, 14, 16] }

/-- Witness parameters: length-8 toy code with two parallel checks on
variables 0 and 1 (an MP oscillator). -/
def wPpar : Params := ⟨8, 0, 0, 4⟩

/-- Witness graph for `wPpar`: checks 0 and 1 both join variables 0
and 1; checks 2..7 are empty. -/
def wGpar : Graph :=
  { ci := [0, 1, 0, 1]
    cs := [0, 2, 4, 4, 4, 4, 4, 4, 4]
    vi := [0, 1, 0, 1]
    vs := [0, 2, 4, 4, 4, 4, 4, 4, 4] }

/-- Witness LLRs that make `wGpar` oscillate forever under MP. -/
def wLlrsPar : List ℚ := [1, -1, 1, 1, 1, 1, 1, 1]

/-- Witness LLRs with unit magnitudes for the message-growth
counterexample on the cycle graph. -/
def wLlrsCyc : List ℚ := [-1, 1, 1, 1, 1, 1, 1, 1]

/-- Witness graph for the erasure decoder (n = 8, p = 8): one check
joining observed variable 0 and punctured variable 8; all other checks
empty. -/
def wGera : Graph :=
  { ci := [0, 8]
    cs := [0, 2, 2, 2, 2, 2, 2, 2, 2, 2, 2, 2, 2, 2, 2, 2, 2]
    vi := [0, 0]
    vs := [0, 1, 1, 1, 1, 1, 1, 1, 1, 2, 2, 2, 2, 2, 2, 2, 2] }

/-- Witness u array for the self-correction claim: the message on the
twin edge u(7 to 0) is −3, all others 0. -/
def wUsc : List ℚ := [0, 0, 0, 0, 0, 0, 0, 0, 0, 0, 0, 0, 0, 0, -3, 0]

/-- Witness v array for the self-correction claim: the previous
message v(0 to 0) is 1, all others 0. -/
def wVsc : List ℚ := [1, 0, 0, 0, 0, 0, 0, 0, 0, 0, 0, 0, 0, 0, 0, 0]

/-- State of the (output, working) pair entering the bit-flipping
loop: the received bits copied into the output, after the erasure
pre-decoder when the code is punctured. -/
def bfInitState (code : LdpcCode) (G : Graph) (input output working : List ℕ) :
    List ℕ × List ℕ :=
  let P := ldpc_codes_get_params code
  let out0 := copyPrefix input output (P.n / 8)
  if 0 < P.p then
    ((ldpc_decode_erasures P G out0 working).2.1,
     (ldpc_decode_erasures P G out0 working).2.2)
  else (out0, working)

/-! ## Toolkit: indexing and packed-bit lemmas -/

lemma nth_set_self (l : List ℕ) (i x : ℕ) (h : i < l.length) :
    nth (l.set i x) i = x := by
  simp [nth, List.getD_eq_getElem?_getD, List.getElem?_set_self, h]

lemma nth_set_ne (l : List ℕ) {i j : ℕ} (x : ℕ) (h : i ≠ j) :
    nth (l.set i x) j = nth l j := by
  simp [nth, List.getD_eq_getElem?_getD, List.getElem?_set_ne h]

lemma qnth_set_self (l : List ℚ) (i : ℕ) (x : ℚ) (h : i < l.length) :
    qnth (l.set i x) i = x := by
  simp [qnth, List.getD_eq_getElem?_getD, List.getElem?_set_self, h]

lemma qnth_set_ne (l : List ℚ) {i j : ℕ} (x : ℚ) (h : i ≠ j) :
    qnth (l.set i x) j = qnth l j := by
  simp [qnth, List.getD_eq_getElem?_getD, List.getElem?_set_ne h]

lemma bitIdx_inj {i j : ℕ} (hd : i / 8 = j / 8) (hm : i % 8 = j % 8) : i = j := by
  omega

lemma getBit_eq_testBit (buf : List ℕ) (i : ℕ) :
    getBit buf i = ((nth buf (i / 8)).testBit (7 - i % 8)).toNat := by
  unfold getBit
  rw [Nat.and_one_is_mod, Nat.shiftRight_eq_div_pow, Nat.testBit_to_div_mod]
  rcases Nat.mod_two_eq_zero_or_one (nth buf (i / 8) / 2 ^ (7 - i % 8)) with h | h <;>
    simp [h]

lemma getBit_lt_two (buf : List ℕ) (i : ℕ) : getBit buf i ≤ 1 := by
  rw [getBit_eq_testBit]
  rcases (nth buf (i / 8)).testBit (7 - i % 8) <;> simp

lemma testBit_offset_ne {i j : ℕ} (h : i ≠ j) (hd : i / 8 = j / 8) :
    (7 - i % 8) ≠ (7 - j % 8) := by
  intro hc
  exact h (bitIdx_inj hd (by omega))

lemma length_setBitOne (buf : List ℕ) (i : ℕ) : (setBitOne buf i).length = buf.length :=
  List.length_set buf _ _

lemma length_clearBit (buf : List ℕ) (i : ℕ) : (clearBit buf i).length = buf.length :=
  List.length_set buf _ _

lemma length_flipBit (buf : List ℕ) (i : ℕ) : (flipBit buf i).length = buf.length :=
  List.length_set buf _ _

lemma getBit_setBitOne_self (buf : List ℕ) (i : ℕ) (h : i / 8 < buf.length) :
    getBit (setBitOne buf i) i = 1 := by
  rw [getBit_eq_testBit, setBitOne, nth_set_self _ _ _ h, Nat.one_shiftLeft,
    Nat.testBit_or, Nat.testBit_two_pow_self]
  simp

lemma nth_set (l : List ℕ) (i j x : ℕ) :
    nth (l.set i x) j = if i = j ∧ j < l.length then x else nth l j := by
  by_cases he : i = j
  · subst he
    by_cases hl : i < l.length
    · simp [nth_set_self _ _ _ hl, hl]
    · rw [List.set_eq_of_length_le (le_of_not_lt hl)]
      simp [hl]
  · simp [nth_set_ne _ _ he, he]

lemma getBit_setBitOne_ne (buf : List ℕ) {i j : ℕ} (h : j ≠ i) :
    getBit (setBitOne buf i) j = getBit buf j := by
  rw [getBit_eq_testBit, getBit_eq_testBit buf, setBitOne, nth_set]
  split
  · next hc =>
    rw [hc.1, Nat.one_shiftLeft, Nat.testBit_or,
      Nat.testBit_two_pow_of_ne (testBit_offset_ne (Ne.symm h) hc.1)]
    simp
  · rfl

lemma getBit_flipBit_self (buf : List ℕ) (i : ℕ) (h : i / 8 < buf.length) :
    getBit (flipBit buf i) i = 1 - getBit buf i := by
  rw [getBit_eq_testBit, getBit_eq_testBit buf, flipBit, nth_set_self _ _ _ h,
    Nat.one_shiftLeft, Nat.testBit_xor]
  rw [show ((2 : ℕ) ^ (7 - i % 8)).testBit (7 - i % 8) = true from
    Nat.testBit_two_pow_self]
  rcases (nth buf (i / 8)).testBit (7 - i % 8) <;> simp

lemma getBit_flipBit_ne (buf : List ℕ) {i j : ℕ} (h : j ≠ i) :
    getBit (flipBit buf i) j = getBit buf j := by
  rw [getBit_eq_testBit, getBit_eq_testBit buf, flipBit, nth_set]
  split
  · next hc =>
    rw [hc.1, Nat.one_shiftLeft, Nat.testBit_xor,
      Nat.testBit_two_pow_of_ne (testBit_offset_ne (Ne.symm h) hc.1)]
    simp
  · rfl

lemma maskCompl_self : ∀ t < 8, ((255 - 2 ^ t : ℕ)).testBit t = false := by decide

lemma maskCompl_ne : ∀ t < 8, ∀ u < 8, u ≠ t → ((255 - 2 ^ t : ℕ)).testBit u = true := by
  decide

lemma getBit_clearBit_self (buf : List ℕ) (i : ℕ) (h : i / 8 < buf.length) :
    getBit (clearBit buf i) i = 0 := by
  rw [getBit_eq_testBit, clearBit, nth_set_self _ _ _ h, Nat.one_shiftLeft,
    Nat.testBit_and, maskCompl_self (7 - i % 8) (by omega)]
  simp

lemma getBit_clearBit_ne (buf : List ℕ) {i j : ℕ} (h : j ≠ i) :
    getBit (clearBit buf i) j = getBit buf j := by
  rw [getBit_eq_testBit, getBit_eq_testBit buf, clearBit, nth_set]
  split
  · next hc =>
    rw [hc.1, Nat.one_shiftLeft, Nat.testBit_and,
      maskCompl_ne (7 - i % 8) (by omega) (7 - j % 8) (by omega)
        (testBit_offset_ne h hc.1.symm)]
    simp
  · rfl

/-! ## Claim C7: sentinel code short-circuits -/

/-- C7: with the sentinel code `LDPC_CODE_NONE`, `ldpc_decode_bf` and
`ldpc_decode_mp` return false with a reported iteration count of 0 and
leave the output and working buffers unmodified, and
`ldpc_decode_hard_to_llrs`, `ldpc_decode_hard_to_llrs_ber` and
`ldpc_decode_llrs_to_hard` return their output buffers unwritten. -/
theorem sentinel_code_noop :
    (∀ G input output working,
        ldpc_decode_bf LdpcCode.noCode G input output working
          = (false, 0, output, working))
    ∧ (∀ G llrs output working,
        ldpc_decode_mp LdpcCode.noCode G llrs output working
          = (false, 0, output, working))
    ∧ (∀ input llrs,
        ldpc_decode_hard_to_llrs LdpcCode.noCode input llrs = llrs)
    ∧ (∀ input llrs logber,
        ldpc_decode_hard_to_llrs_ber LdpcCode.noCode input llrs logber = llrs)
    ∧ (∀ llrs output,
        ldpc_decode_llrs_to_hard LdpcCode.noCode llrs output = output) :=
  ⟨fun _ _ _ _ => rfl, fun _ _ _ _ => rfl, fun _ _ => rfl, fun _ _ _ => rfl,
    fun _ _ => rfl⟩

/-! ## Loop structure lemmas (used for the iteration-cap claims) -/

lemma bfLoop_succ (P : Params) (G : Graph) (out w : List ℕ) (fuel : ℕ) :
    bfLoop P G out w (fuel + 1) =
      (let viol := computeViolations P G w out
       let maxV := maxViolations P viol
       if maxV = 0 then (true, 0, out, viol)
       else
         let r := bfLoop P G (bfFlip P viol maxV out) viol fuel
         (r.1, r.2.1 + 1, r.2.2)) := rfl

lemma bfLoop_iters_le (P : Params) (G : Graph) :
    ∀ (fuel : ℕ) (out w : List ℕ), (bfLoop P G out w fuel).2.1 ≤ fuel := by
  intro fuel
  induction fuel with
  | zero => intro out w; exact Nat.le_refl 0
  | succ n ih =>
    intro out w
    rw [bfLoop_succ]
    by_cases hm :
        maxViolations P (computeViolations P G w out) = 0 <;>
      simp only [hm, if_true, if_false, ite_true, ite_false]
    · exact Nat.zero_le _
    · exact Nat.succ_le_succ (ih _ _)

lemma bfLoop_false (P : Params) (G : Graph) :
    ∀ (fuel : ℕ) (out w : List ℕ), (bfLoop P G out w fuel).1 = false →
      (bfLoop P G out w fuel).2.1 = fuel
        ∧ (bfLoop P G out w fuel).2.2 = (bfStep P G)^[fuel] (out, w) := by
  intro fuel
  induction fuel with
  | zero => intro out w _; exact ⟨rfl, rfl⟩
  | succ n ih =>
    intro out w hfalse
    rw [bfLoop_succ] at hfalse ⊢
    by_cases hm : maxViolations P (computeViolations P G w out) = 0
    · simp only [hm, ite_true] at hfalse
      exact Bool.noConfusion hfalse
    · simp only [hm, ite_false] at hfalse ⊢
      have h2 := ih _ _ hfalse
      refine ⟨by rw [h2.1], ?_⟩
      rw [h2.2, Function.iterate_succ_apply]
      rfl

lemma bfLoop_true_iff (P : Params) (G : Graph) :
    ∀ (fuel : ℕ) (out w : List ℕ),
      (bfLoop P G out w fuel).1 = true ↔
        ∃ t < fuel, bfMaxV P G ((bfStep P G)^[t] (out, w)) = 0 := by
  intro fuel
  induction fuel with
  | zero =>
    intro out w
    constructor
    · intro h; exact absurd h (by simp [bfLoop])
    · rintro ⟨t, ht, -⟩; omega
  | succ n ih =>
    intro out w
    rw [bfLoop_succ]
    by_cases hm : maxViolations P (computeViolations P G w out) = 0
    · simp only [hm, ite_true]
      constructor
      · intro _; exact ⟨0, Nat.succ_pos n, hm⟩
      · intro _; trivial
    · simp only [hm, ite_false]
      rw [ih]
      constructor
      · rintro ⟨t, ht, hz⟩
        refine ⟨t + 1, by omega, ?_⟩
        rw [Function.iterate_succ_apply]
        exact hz
      · rintro ⟨t, ht, hz⟩
        rcases t with _ | t
        · exact absurd hz hm
        · refine ⟨t, by omega, ?_⟩
          rw [Function.iterate_succ_apply] at hz
          exact hz

lemma erasureLoop_succ (P : Params) (G : Graph) (st : ErasureState) (fuel : ℕ) :
    erasureLoop P G st (fuel + 1) =
      (if st.fixed < P.p then
        let r := erasureLoop P G (erasureRound P G st) fuel
        (r.1 + 1, r.2)
      else (0, st)) := rfl

lemma erasureLoop_iters_le (P : Params) (G : Graph) :
    ∀ (fuel : ℕ) (st : ErasureState), (erasureLoop P G st fuel).1 ≤ fuel := by
  intro fuel
  induction fuel with
  | zero => intro st; exact Nat.le_refl 0
  | succ n ih =>
    intro st
    rw [erasureLoop_succ]
    by_cases hf : st.fixed < P.p <;> simp only [hf, ite_true, ite_false]
    · exact Nat.succ_le_succ (ih _)
    · exact Nat.zero_le _

lemma mpLoop_succ (P : Params) (G : Graph) (llrs : List ℚ)
    (st : List ℚ × List ℚ × List ℕ) (fuel : ℕ) :
    mpLoop P G llrs st (fuel + 1) =
      (let st2 := mpIter P G llrs st
       if mpParityOk P G st2.2.2 then (true, 0, st2)
       else
         let r := mpLoop P G llrs st2 fuel
         (r.1, r.2.1 + 1, r.2.2)) := rfl

lemma mpLoop_iters_le (P : Params) (G : Graph) (llrs : List ℚ) :
    ∀ (fuel : ℕ) (st : List ℚ × List ℚ × List ℕ),
      (mpLoop P G llrs st fuel).2.1 ≤ fuel := by
  intro fuel
  induction fuel with
  | zero => intro st; exact Nat.le_refl 0
  | succ n ih =>
    intro st
    rw [mpLoop_succ]
    by_cases hok : mpParityOk P G (mpIter P G llrs st).2.2 = true <;>
      simp only [hok, ite_true, ite_false, if_true, if_false]
    · exact Nat.zero_le _
    · exact Nat.succ_le_succ (ih _)

lemma mpLoop_false (P : Params) (G : Graph) (llrs : List ℚ) :
    ∀ (fuel : ℕ) (st : List ℚ × List ℚ × List ℕ),
      (mpLoop P G llrs st fuel).1 = false →
        (mpLoop P G llrs st fuel).2.1 = fuel
          ∧ (mpLoop P G llrs st fuel).2.2 = (mpIter P G llrs)^[fuel] st := by
  intro fuel
  induction fuel with
  | zero => intro st _; exact ⟨rfl, rfl⟩
  | succ n ih =>
    intro st hfalse
    rw [mpLoop_succ] at hfalse ⊢
    by_cases hok : mpParityOk P G (mpIter P G llrs st).2.2 = true
    · rw [if_pos hok] at hfalse
      exact Bool.noConfusion hfalse
    · rw [if_neg hok] at hfalse ⊢
      have h2 := ih _ (by exact hfalse)
      constructor
      · show (mpLoop P G llrs (mpIter P G llrs st) n).2.1 + 1 = n + 1
        rw [h2.1]
      · show (mpLoop P G llrs (mpIter P G llrs st) n).2.2 = _
        rw [h2.2, Function.iterate_succ_apply]

lemma mpLoop_true_iff (P : Params) (G : Graph) (llrs : List ℚ) :
    ∀ (fuel : ℕ) (st : List ℚ × List ℚ × List ℕ),
      (mpLoop P G llrs st fuel).1 = true ↔
        ∃ t < fuel, mpParityOk P G ((mpIter P G llrs)^[t + 1] st).2.2 = true := by
  intro fuel
  induction fuel with
  | zero =>
    intro st
    constructor
    · intro h; exact absurd h (by simp [mpLoop])
    · rintro ⟨t, ht, -⟩; omega
  | succ n ih =>
    intro st
    rw [mpLoop_succ]
    by_cases hok : mpParityOk P G (mpIter P G llrs st).2.2 = true
    · simp only [hok, ite_true]
      constructor
      · intro _
        refine ⟨0, Nat.succ_pos n, ?_⟩
        simpa using hok
      · intro _; trivial
    · rw [if_neg hok]
      have hred : (let r := mpLoop P G llrs (mpIter P G llrs st) n;
          ((r.1 : Bool), r.2.1 + 1, r.2.2)).1 = (mpLoop P G llrs (mpIter P G llrs st) n).1 := rfl
      rw [hred, ih]
      constructor
      · rintro ⟨t, ht, hz⟩
        refine ⟨t + 1, by omega, ?_⟩
        rw [Function.iterate_succ_apply]
        exact hz
      · rintro ⟨t, ht, hz⟩
        rcases t with _ | t
        · exact absurd (by simpa using hz) hok
        · refine ⟨t, by omega, ?_⟩
          rw [Function.iterate_succ_apply] at hz
          exact hz

/-! ## Claim C8: iteration caps and exhaustion behaviour -/

/-- C8: `ldpc_decode_bf` and `ldpc_decode_mp` perform at most 20
iterations (reported counts: at most 16+20 for BF including the
erasure phase, at most 20 for MP) and `ldpc_decode_erasures` at most
16; when a 20-round loop is exhausted without all parity checks
satisfied it reports failure, a full count of 20, and the output still
holds the hard decisions of the last candidate (the 20-fold iterate of
the round function). -/
theorem decoder_iteration_caps :
    (∀ code G input output working,
      (ldpc_decode_bf code G input output working).2.1 ≤ 16 + 20)
    ∧ (∀ P G out w, (bfLoop P G out w 20).2.1 ≤ 20)
    ∧ (∀ P G out w, (ldpc_decode_erasures P G out w).1 ≤ 16)
    ∧ (∀ code G llrs output working,
      (ldpc_decode_mp code G llrs output working).2.1 ≤ 20)
    ∧ (∀ P G out w, (bfLoop P G out w 20).1 = false →
      (bfLoop P G out w 20).2.1 = 20
        ∧ (bfLoop P G out w 20).2.2 = (bfStep P G)^[20] (out, w))
    ∧ (∀ P G llrs st, (mpLoop P G llrs st 20).1 = false →
      (mpLoop P G llrs st 20).2.1 = 20
        ∧ (mpLoop P G llrs st 20).2.2 = (mpIter P G llrs)^[20] st) := by
  refine ⟨?_, ?_, ?_, ?_, ?_, ?_⟩
  · intro code G input output working
    by_cases hc : code = LdpcCode.noCode
    · subst hc
      exact Nat.zero_le _
    · unfold ldpc_decode_bf
      rw [if_neg hc]
      have h1 := erasureLoop_iters_le (ldpc_codes_get_params code) G 16
      have h2 := bfLoop_iters_le (ldpc_codes_get_params code) G 20
      by_cases hp : 0 < (ldpc_codes_get_params code).p <;>
        simp only [hp, ite_true, ite_false, if_true, if_false]
      · exact Nat.add_le_add (h1 _) (h2 _ _)
      · have hB := h2 (copyPrefix input output ((ldpc_codes_get_params code).n / 8)) working
        omega
  · intro P G out w
    exact bfLoop_iters_le P G 20 out w
  · intro P G out w
    exact erasureLoop_iters_le P G 16 _
  · intro code G llrs output working
    by_cases hc : code = LdpcCode.noCode
    · subst hc
      exact Nat.zero_le _
    · unfold ldpc_decode_mp
      rw [if_neg hc]
      exact mpLoop_iters_le _ G llrs 20 _
  · intro P G out w hf
    exact bfLoop_false P G 20 out w hf
  · intro P G llrs st hf
    exact mpLoop_false P G llrs 20 st hf

set_option maxRecDepth 100000 in
/-- Witness for C8: on the cycle graph from the input 0x0F the BF loop
exhausts its 20 rounds, and on the parallel-check graph with the
oscillating LLRs the MP loop exhausts its 20 iterations; both then
report 20 iterations and the 20-fold iterate of the round function. -/
theorem decoder_iteration_caps_witness :
    (bfLoop wPcyc wGcyc [15] (List.replicate 8 0) 20).2.1 = 20
    ∧ (bfLoop wPcyc wGcyc [15] (List.replicate 8 0) 20).2.2 =
        (bfStep wPcyc wGcyc)^[20] ([15], List.replicate 8 0)
    ∧ (mpLoop wPpar wGpar wLlrsPar
        (List.replicate 4 0, List.replicate 4 0, [0]) 20).2.1 = 20
    ∧ (mpLoop wPpar wGpar wLlrsPar
        (List.replicate 4 0, List.replicate 4 0, [0]) 20).2.2 =
          (mpIter wPpar wGpar wLlrsPar)^[20]
            (List.replicate 4 0, List.replicate 4 0, [0]) := by
  have hbf : (bfLoop wPcyc wGcyc [15] (List.replicate 8 0) 20).1 = false := by decide
  have hmp : (mpLoop wPpar wGpar wLlrsPar
      (List.replicate 4 0, List.replicate 4 0, [0]) 20).1 = false := by
    with_unfolding_all rfl
  obtain ⟨-, -, -, -, c5, c6⟩ := decoder_iteration_caps
  obtain ⟨h1, h2⟩ := c5 wPcyc wGcyc [15] (List.replicate 8 0) hbf
  obtain ⟨h3, h4⟩ := c6 wPpar wGpar wLlrsPar
    (List.replicate 4 0, List.replicate 4 0, [0]) hmp
  exact ⟨h1, h2, h3, h4⟩

/-! ## Claim C10: BF iteration count accumulates across phases -/

/-- C10: the iteration count reported by `ldpc_decode_bf` accumulates
across phases: for punctured codes it is the erasure pre-decoder's
iteration count plus the bit-flipping rounds run (a single sum, so the
erasure contribution is not separately recoverable by the caller),
while for unpunctured codes it is the bit-flipping rounds alone; the
two contributions are individually capped at 16 and 20. -/
theorem bf_iters_accumulate (code : LdpcCode) (hc : code ≠ LdpcCode.noCode)
    (G : Graph) (input output working : List ℕ) :
    (0 < (ldpc_codes_get_params code).p →
      (ldpc_decode_bf code G input output working).2.1 =
        (ldpc_decode_erasures (ldpc_codes_get_params code) G
          (copyPrefix input output ((ldpc_codes_get_params code).n / 8)) working).1
        + (bfLoop (ldpc_codes_get_params code) G
            (ldpc_decode_erasures (ldpc_codes_get_params code) G
              (copyPrefix input output ((ldpc_codes_get_params code).n / 8))
              working).2.1
            (ldpc_decode_erasures (ldpc_codes_get_params code) G
              (copyPrefix input output ((ldpc_codes_get_params code).n / 8))
              working).2.2 20).2.1)
    ∧ ((ldpc_codes_get_params code).p = 0 →
      (ldpc_decode_bf code G input output working).2.1 =
        (bfLoop (ldpc_codes_get_params code) G
          (copyPrefix input output ((ldpc_codes_get_params code).n / 8))
          working 20).2.1)
    ∧ (∀ P G2 out w, (ldpc_decode_erasures P G2 out w).1 ≤ 16
        ∧ (bfLoop P G2 out w 20).2.1 ≤ 20) := by
  refine ⟨?_, ?_, ?_⟩
  · intro hp
    unfold ldpc_decode_bf
    rw [if_neg hc]
    simp only [hp, ite_true, if_true]
  · intro hp
    unfold ldpc_decode_bf
    rw [if_neg hc]
    have hp2 : ¬ 0 < (ldpc_codes_get_params code).p := by omega
    simp only [hp2, ite_false, if_false]
    exact Nat.zero_add _
  · intro P G2 out w
    exact ⟨erasureLoop_iters_le P G2 16 _, bfLoop_iters_le P G2 20 out w⟩

/-- Witness for C10 at the punctured code (1280, 1024) and at the
unpunctured code (128, 64), with arbitrary small buffers. -/
theorem bf_iters_accumulate_witness :
    (0 < (ldpc_codes_get_params LdpcCode.n1280k1024).p →
      (ldpc_decode_bf LdpcCode.n1280k1024 wGcyc [7] [9] [4]).2.1 =
        (ldpc_decode_erasures (ldpc_codes_get_params LdpcCode.n1280k1024) wGcyc
          (copyPrefix [7] [9] ((ldpc_codes_get_params LdpcCode.n1280k1024).n / 8)) [4]).1
        + (bfLoop (ldpc_codes_get_params LdpcCode.n1280k1024) wGcyc
            (ldpc_decode_erasures (ldpc_codes_get_params LdpcCode.n1280k1024) wGcyc
              (copyPrefix [7] [9] ((ldpc_codes_get_params LdpcCode.n1280k1024).n / 8)) [4]).2.1
            (ldpc_decode_erasures (ldpc_codes_get_params LdpcCode.n1280k1024) wGcyc
              (copyPrefix [7] [9] ((ldpc_codes_get_params LdpcCode.n1280k1024).n / 8)) [4]).2.2 20).2.1)
    ∧ ((ldpc_codes_get_params LdpcCode.n128k64).p = 0 →
      (ldpc_decode_bf LdpcCode.n128k64 wGcyc [7] [9] [4]).2.1 =
        (bfLoop (ldpc_codes_get_params LdpcCode.n128k64) wGcyc
          (copyPrefix [7] [9] ((ldpc_codes_get_params LdpcCode.n128k64).n / 8)) [4] 20).2.1) := by
  refine ⟨?_, ?_⟩
  · exact (bf_iters_accumulate LdpcCode.n1280k1024 (by decide) wGcyc [7] [9] [4]).1
  · exact (bf_iters_accumulate LdpcCode.n128k64 (by decide) wGcyc [7] [9] [4]).2.1

/-! ## Claim C6: LLR values emitted by hard_to_llrs -/

lemma length_foldl_set (g : ℕ → ℚ) (L : List ℕ) :
    ∀ l : List ℚ, (L.foldl (fun acc j => acc.set j (g j)) l).length = l.length := by
  induction L with
  | nil => intro l; rfl
  | cons i rest ih =>
    intro l
    rw [List.foldl_cons, ih, List.length_set]

lemma foldl_set_range_getD (g : ℕ → ℚ) :
    ∀ (n : ℕ) (l : List ℚ) (i : ℕ), i < n → i < l.length →
      qnth ((List.range n).foldl (fun acc j => acc.set j (g j)) l) i = g i := by
  intro n
  induction n with
  | zero => intro l i hi; omega
  | succ m ih =>
    intro l i hi hl
    rw [List.range_succ, List.foldl_append, List.foldl_cons, List.foldl_nil]
    rcases Nat.lt_or_ge i m with hlt | hge
    · rw [qnth_set_ne _ _ (by omega : m ≠ i), ih l i hlt hl]
    · have hieq : i = m := by omega
      subst hieq
      rw [qnth_set_self]
      rw [length_foldl_set]
      exact hl

lemma foldl_set_range_getD_ge (g : ℕ → ℚ) :
    ∀ (n : ℕ) (l : List ℚ) (i : ℕ), n ≤ i →
      qnth ((List.range n).foldl (fun acc j => acc.set j (g j)) l) i = qnth l i := by
  intro n
  induction n with
  | zero => intro l i _; rfl
  | succ m ih =>
    intro l i hi
    rw [List.range_succ, List.foldl_append, List.foldl_cons, List.foldl_nil]
    rw [qnth_set_ne _ _ (by omega : m ≠ i), ih l i (by omega)]

/-- Pointwise value of the `hard_to_llrs_ber` output inside the first
n positions. -/
lemma hard_to_llrs_ber_getD (code : LdpcCode) (hc : code ≠ LdpcCode.noCode)
    (input : List ℕ) (llrs0 : List ℚ) (logber : ℚ) (i : ℕ)
    (hi : i < (ldpc_codes_get_params code).n) (hl : i < llrs0.length) :
    qnth (ldpc_decode_hard_to_llrs_ber code input llrs0 logber) i =
      (if getBit input i = 1 then logber else -logber) := by
  unfold ldpc_decode_hard_to_llrs_ber
  rw [if_neg hc]
  exact foldl_set_range_getD _ _ llrs0 i hi hl

/-- C6: for every non-sentinel code, `ldpc_decode_hard_to_llrs` emits
for each observed 1 bit the value `logf(0.05)` (negative, favouring 1)
and for each observed 0 bit the value `-logf(0.05)` (positive,
favouring 0).  In the spec's wording these two values are written
`+log(0.05)` and `−log(0.05)` with the sign prefix denoting the sign
of the emitted LLR under the stated convention (positive LLR favours
0); `log005` is the embedding's rational stand-in for `logf(0.05f)`. -/
theorem hard_to_llrs_values (code : LdpcCode) (hc : code ≠ LdpcCode.noCode)
    (input : List ℕ) (llrs0 : List ℚ) (i : ℕ)
    (hi : i < (ldpc_codes_get_params code).n) (hl : i < llrs0.length) :
    (getBit input i = 1 →
      qnth (ldpc_decode_hard_to_llrs code input llrs0) i = log005
        ∧ qnth (ldpc_decode_hard_to_llrs code input llrs0) i < 0)
    ∧ (getBit input i = 0 →
      qnth (ldpc_decode_hard_to_llrs code input llrs0) i = -log005
        ∧ 0 < qnth (ldpc_decode_hard_to_llrs code input llrs0) i) := by
  have hv := hard_to_llrs_ber_getD code hc input llrs0 log005 i hi hl
  have hneg : log005 < 0 := by norm_num [log005]
  constructor
  · intro hbit
    rw [ldpc_decode_hard_to_llrs, hv, if_pos hbit]
    exact ⟨rfl, hneg⟩
  · intro hbit
    rw [ldpc_decode_hard_to_llrs, hv, if_neg (by omega)]
    exact ⟨rfl, by linarith⟩

/-- Witness for C6 at the (128, 64) code, input byte 0xA5, position 0
(a 1 bit) and position 2 (a 0 bit). -/
theorem hard_to_llrs_values_witness :
    (getBit [165] 0 = 1 →
      qnth (ldpc_decode_hard_to_llrs LdpcCode.n128k64 [165] (List.replicate 128 0)) 0
          = log005
        ∧ qnth (ldpc_decode_hard_to_llrs LdpcCode.n128k64 [165]
            (List.replicate 128 0)) 0 < 0)
    ∧ (getBit [165] 2 = 0 →
      qnth (ldpc_decode_hard_to_llrs LdpcCode.n128k64 [165] (List.replicate 128 0)) 2
          = -log005
        ∧ 0 < qnth (ldpc_decode_hard_to_llrs LdpcCode.n128k64 [165]
            (List.replicate 128 0)) 2) := by
  constructor
  · exact (hard_to_llrs_values LdpcCode.n128k64 (by decide) [165]
      (List.replicate 128 0) 0 (by decide) (by simp)).1
  · exact (hard_to_llrs_values LdpcCode.n128k64 (by decide) [165]
      (List.replicate 128 0) 2 (by decide) (by simp)).2

/-! ## Claim C5: hard_to_llrs then llrs_to_hard is the identity -/

lemma foldl_condSet_length (cond : ℕ → Prop) [DecidablePred cond] (L : List ℕ) :
    ∀ o : List ℕ,
      (L.foldl (fun o2 i => if cond i then setBitOne o2 i else o2) o).length = o.length := by
  induction L with
  | nil => intro o; rfl
  | cons i rest ih =>
    intro o
    rw [List.foldl_cons]
    by_cases hc : cond i
    · rw [if_pos hc, ih, length_setBitOne]
    · rw [if_neg hc, ih]

lemma foldl_condSet_getBit (cond : ℕ → Prop) [DecidablePred cond] (L : List ℕ) :
    ∀ (o : List ℕ) (x : ℕ), x / 8 < o.length →
      getBit (L.foldl (fun o2 i => if cond i then setBitOne o2 i else o2) o) x =
        (if x ∈ L ∧ cond x then 1 else getBit o x) := by
  induction L with
  | nil =>
    intro o x _
    rw [List.foldl_nil, if_neg (fun hh => (List.not_mem_nil x) hh.1)]
  | cons i rest ih =>
    intro o x hx
    rw [List.foldl_cons]
    by_cases hix : x = i
    · subst hix
      by_cases hcx : cond x
      · rw [if_pos hcx, ih _ x (by rw [length_setBitOne]; exact hx)]
        by_cases hm : x ∈ rest ∧ cond x
        · rw [if_pos hm, if_pos ⟨List.mem_cons_self x rest, hcx⟩]
        · rw [if_neg hm, getBit_setBitOne_self o x hx,
            if_pos ⟨List.mem_cons_self x rest, hcx⟩]
      · rw [if_neg hcx, ih _ x hx]
        rw [if_neg (fun hh : x ∈ rest ∧ cond x => hcx hh.2),
          if_neg (fun hh : x ∈ x :: rest ∧ cond x => hcx hh.2)]
    · have hmem : (x ∈ i :: rest ∧ cond x) ↔ (x ∈ rest ∧ cond x) := by
        constructor
        · rintro ⟨hm, hc2⟩
          rcases List.mem_cons.mp hm with he | hm2
          · exact absurd he hix
          · exact ⟨hm2, hc2⟩
        · rintro ⟨hm, hc2⟩
          exact ⟨List.mem_cons_of_mem _ hm, hc2⟩
      by_cases hci : cond i
      · rw [if_pos hci, ih _ x (by rw [length_setBitOne]; exact hx),
          getBit_setBitOne_ne o hix, if_congr hmem rfl rfl]
      · rw [if_neg hci, ih _ x hx, if_congr hmem rfl rfl]

lemma foldl_condSet_byte_lt (cond : ℕ → Prop) [DecidablePred cond] (L : List ℕ) :
    ∀ (o : List ℕ) (j : ℕ), nth o j < 256 →
      nth (L.foldl (fun o2 i => if cond i then setBitOne o2 i else o2) o) j < 256 := by
  induction L with
  | nil => intro o j h; exact h
  | cons i rest ih =>
    intro o j h
    rw [List.foldl_cons]
    apply ih
    by_cases hc : cond i
    · rw [if_pos hc]
      unfold setBitOne
      rw [nth_set]
      split
      · next hcc =>
        rw [hcc.1, Nat.one_shiftLeft]
        have h28 : (256 : ℕ) = 2 ^ 8 := rfl
        rw [h28] at h ⊢
        exact Nat.or_lt_two_pow h
          (Nat.pow_lt_pow_right (by norm_num) (by omega))
      · exact h
    · rw [if_neg hc]
      exact h

lemma getBit_byte (buf : List ℕ) (j u : ℕ) (hu : u < 8) :
    getBit buf (8 * j + (7 - u)) = ((nth buf j).testBit u).toNat := by
  rw [getBit_eq_testBit]
  have h1 : (8 * j + (7 - u)) / 8 = j := by omega
  have h2 : 7 - (8 * j + (7 - u)) % 8 = u := by omega
  rw [h1, h2]

lemma nth_replicate_append (m q : ℕ) (rest : List ℕ) (hq : q < m) :
    nth (List.replicate m 0 ++ rest) q = 0 := by
  rw [nth, List.getD_append _ _ _ _ (by simpa using hq)]
  simp [List.getD_eq_getElem?_getD, List.getElem?_replicate, hq]

/-- Bit-level description of `llrs_to_hard` on the observed range: bit
x of the packed output is 1 exactly when the x-th LLR is ≤ 0. -/
lemma llrs_to_hard_getBit (code : LdpcCode) (hc : code ≠ LdpcCode.noCode)
    (llrs : List ℚ) (out0 : List ℕ) (x : ℕ)
    (hx : x < (ldpc_codes_get_params code).n)
    (hn8 : (ldpc_codes_get_params code).n % 8 = 0) :
    getBit (ldpc_decode_llrs_to_hard code llrs out0) x =
      (if qnth llrs x ≤ 0 then 1 else 0) := by
  unfold ldpc_decode_llrs_to_hard
  rw [if_neg hc]
  have hx8 : x / 8 < (ldpc_codes_get_params code).n / 8 := by omega
  have hlen : x / 8 <
      (List.replicate ((ldpc_codes_get_params code).n / 8) 0
        ++ out0.drop ((ldpc_codes_get_params code).n / 8)).length := by
    rw [List.length_append, List.length_replicate]
    omega
  rw [foldl_condSet_getBit _ _ _ x hlen]
  have hbase : getBit
      (List.replicate ((ldpc_codes_get_params code).n / 8) 0
        ++ out0.drop ((ldpc_codes_get_params code).n / 8)) x = 0 := by
    rw [getBit_eq_testBit, nth_replicate_append _ _ _ hx8]
    simp
  rw [hbase]
  by_cases hq : qnth llrs x ≤ 0
  · rw [if_pos ⟨List.mem_range.mpr hx, hq⟩, if_pos hq]
  · rw [if_neg (fun hh => hq hh.2), if_neg hq]

/-- C5: for every non-sentinel code, converting hard bits to LLRs with
`ldpc_decode_hard_to_llrs` and back with `ldpc_decode_llrs_to_hard`
reproduces the received bytes exactly on the observed n bits. -/
theorem hard_llr_roundtrip (code : LdpcCode) (hc : code ≠ LdpcCode.noCode)
    (r : List ℕ) (llrs0 : List ℚ) (out0 : List ℕ)
    (hlen : (ldpc_codes_get_params code).n ≤ llrs0.length)
    (j : ℕ) (hj : j < (ldpc_codes_get_params code).n / 8)
    (hbyte : nth r j < 256) :
    nth (ldpc_decode_llrs_to_hard code
      (ldpc_decode_hard_to_llrs code r llrs0) out0) j = nth r j := by
  have hn8 : (ldpc_codes_get_params code).n % 8 = 0 := by
    cases code <;> rfl
  have hneg : log005 < 0 := by norm_num [log005]
  -- bit-level identity inside byte j
  have hbit : ∀ u < 8,
      getBit (ldpc_decode_llrs_to_hard code
        (ldpc_decode_hard_to_llrs code r llrs0) out0) (8 * j + (7 - u)) =
      getBit r (8 * j + (7 - u)) := by
    intro u hu
    have hx : 8 * j + (7 - u) < (ldpc_codes_get_params code).n := by omega
    rw [llrs_to_hard_getBit code hc _ out0 _ hx hn8]
    have hv := hard_to_llrs_ber_getD code hc r llrs0 log005 (8 * j + (7 - u)) hx
      (by omega)
    rw [ldpc_decode_hard_to_llrs, hv]
    have hb := getBit_lt_two r (8 * j + (7 - u))
    rcases Nat.lt_or_ge (getBit r (8 * j + (7 - u))) 1 with h0 | h1
    · have h0e : getBit r (8 * j + (7 - u)) = 0 := by omega
      rw [h0e, if_neg (by norm_num : ¬ (0 : ℕ) = 1),
        if_neg (by linarith : ¬ -log005 ≤ 0)]
    · have h1e : getBit r (8 * j + (7 - u)) = 1 := by omega
      rw [h1e, if_pos rfl, if_pos (le_of_lt hneg)]
  -- byte below 256 on the output side
  have hlt : nth (ldpc_decode_llrs_to_hard code
      (ldpc_decode_hard_to_llrs code r llrs0) out0) j < 256 := by
    unfold ldpc_decode_llrs_to_hard
    rw [if_neg hc]
    apply foldl_condSet_byte_lt
    rcases Nat.lt_or_ge j ((ldpc_codes_get_params code).n / 8) with hj2 | hj2
    · rw [nth_replicate_append _ _ _ hj2]; omega
    · omega
  -- byte equality via testBit extensionality
  apply Nat.eq_of_testBit_eq
  intro u
  rcases Nat.lt_or_ge u 8 with hu | hu
  · have := hbit u hu
    rw [getBit_byte _ _ _ hu, getBit_byte _ _ _ hu] at this
    rcases hA : (nth (ldpc_decode_llrs_to_hard code
        (ldpc_decode_hard_to_llrs code r llrs0) out0) j).testBit u <;>
      rcases hB : (nth r j).testBit u <;>
        rw [hA, hB] at this <;> simp_all
  · have h2 : (256 : ℕ) ≤ 2 ^ u :=
      le_trans (by norm_num) (Nat.pow_le_pow_right (by norm_num) hu)
    rw [Nat.testBit_lt_two_pow (by omega), Nat.testBit_lt_two_pow (by omega)]

set_option maxRecDepth 4000 in
/-- Witness for C5 at the (128, 64) code with input bytes 0xA5 and
0x3C in positions 0 and 1. -/
theorem hard_llr_roundtrip_witness :
    nth (ldpc_decode_llrs_to_hard LdpcCode.n128k64
      (ldpc_decode_hard_to_llrs LdpcCode.n128k64 [165, 60] (List.replicate 128 0))
      (List.replicate 16 9)) 1 = nth [165, 60] 1 :=
  hard_llr_roundtrip LdpcCode.n128k64 (by decide) [165, 60] (List.replicate 128 0)
    (List.replicate 16 9) (by decide) 1 (by decide) (by decide)

/-! ## Claim C4: erasure-decoder per-node behaviour -/

lemma scanCheck_none_iff (out erasures : List ℕ) (a : ℕ) :
    ∀ (l : List ℕ) (par : ℕ),
      scanCheck out erasures a l par = Option.none ↔
        (l.filter (fun b => b ≠ a)).any (fun b => nth erasures b ≠ 0) = true := by
  intro l
  induction l with
  | nil =>
    intro par
    simp [scanCheck]
  | cons b rest ih =>
    intro par
    by_cases hba : b = a
    · rw [scanCheck, if_pos hba, ih par,
        List.filter_cons_of_neg (by simp [hba])]
    · by_cases hberased : nth erasures b ≠ 0
      · rw [scanCheck, if_neg hba, if_pos hberased,
          List.filter_cons_of_pos (by simp [hba])]
        simp [hberased]
      · rw [scanCheck, if_neg hba, if_neg hberased, ih _,
          List.filter_cons_of_pos (by simp [hba])]
        simp [hberased]

lemma scanCheck_some_parity (out erasures : List ℕ) (a : ℕ) :
    ∀ (l : List ℕ) (par res : ℕ),
      scanCheck out erasures a l par = Option.some res →
        res % 2 = (par + ((l.filter (fun b => b ≠ a)).map (getBit out)).sum) % 2 := by
  intro l
  induction l with
  | nil =>
    intro par res h
    rw [scanCheck] at h
    cases h
    simp
  | cons b rest ih =>
    intro par res h
    by_cases hba : b = a
    · rw [scanCheck, if_pos hba] at h
      rw [List.filter_cons_of_neg (by simp [hba])]
      exact ih par res h
    · by_cases hberased : nth erasures b ≠ 0
      · rw [scanCheck, if_neg hba, if_pos hberased] at h
        cases h
      · rw [scanCheck, if_neg hba, if_neg hberased] at h
        have h2 := ih _ _ h
        rw [List.filter_cons_of_pos (by simp [hba]), List.map_cons, List.sum_cons]
        omega

lemma erasureVotes_foldl (G : Graph) (out erasures : List ℕ) (a : ℕ) :
    ∀ (L : List ℕ) (votes : ℤ),
      L.foldl
        (fun votes ai =>
          match scanCheck out erasures a (checkSlice G (nth G.vi ai)) 0 with
          | Option.none => votes
          | Option.some parity => if parity % 2 = 1 then votes + 1 else votes - 1)
        votes =
      votes + ((L.map (fun ai => specVote G out erasures a (nth G.vi ai))).sum) := by
  intro L
  induction L with
  | nil => intro votes; simp
  | cons ai rest ih =>
    intro votes
    rw [List.foldl_cons, List.map_cons, List.sum_cons, ih]
    rcases hscan : scanCheck out erasures a (checkSlice G (nth G.vi ai)) 0 with _ | par
    · have hany := (scanCheck_none_iff out erasures a _ 0).mp hscan
      rw [specVote, if_pos hany]
      ring
    · have hnotany : ¬ ((checkSlice G (nth G.vi ai)).filter
          (fun b => b ≠ a)).any (fun b => nth erasures b ≠ 0) = true := by
        intro hcon
        rw [← scanCheck_none_iff out erasures a _ 0] at hcon
        rw [hscan] at hcon
        cases hcon
      have hpar := scanCheck_some_parity out erasures a _ 0 par hscan
      rw [specVote, if_neg hnotany]
      rw [Nat.zero_add] at hpar
      have hm : ∀ v : ℤ, (match Option.some par with
          | Option.none => v
          | Option.some parity => if parity % 2 = 1 then v + 1 else v - 1) =
          (if par % 2 = 1 then v + 1 else v - 1) := fun v => rfl
      rw [hm]
      by_cases hodd : par % 2 = 1
      · rw [if_pos hodd, if_pos (by omega)]
        ring
      · rw [if_neg hodd, if_neg (by omega)]
        ring

lemma erasureVotes_eq_specVotes (G : Graph) (out erasures : List ℕ) (a : ℕ) :
    erasureVotes G out erasures a = specVotes G out erasures a := by
  rw [erasureVotes, specVotes, erasureVotes_foldl]
  simp

/-- C4: for a still-erased punctured variable node a, the erasure
decoder's per-node step counts one vote per neighbouring check — no
vote from a check with another erased neighbour, +1 when the other
neighbours' parity is odd, −1 when it is even — and then sets a's bit
to 1 and clears its erasure on a positive total, sets the bit to 0 and
clears the erasure on a negative total, and leaves a erased (the whole
state unchanged) on a zero total. -/
theorem erasure_step_spec (G : Graph) (st : ErasureState) (a : ℕ)
    (he : nth st.erasures a ≠ 0)
    (hout : a / 8 < st.out.length) (hel : a < st.erasures.length) :
    erasureVotes G st.out st.erasures a = specVotes G st.out st.erasures a
    ∧ (0 < specVotes G st.out st.erasures a →
        getBit (erasureStep G st a).out a = 1
        ∧ nth (erasureStep G st a).erasures a = 0
        ∧ (erasureStep G st a).fixed = st.fixed + 1)
    ∧ (specVotes G st.out st.erasures a < 0 →
        getBit (erasureStep G st a).out a = 0
        ∧ nth (erasureStep G st a).erasures a = 0
        ∧ (erasureStep G st a).fixed = st.fixed + 1)
    ∧ (specVotes G st.out st.erasures a = 0 → erasureStep G st a = st) := by
  have hv := erasureVotes_eq_specVotes G st.out st.erasures a
  refine ⟨hv, ?_, ?_, ?_⟩
  · intro hpos
    rw [erasureStep, if_neg he, if_neg (by omega : ¬ erasureVotes G st.out st.erasures a = 0)]
    rw [if_pos (by omega : erasureVotes G st.out st.erasures a > 0)]
    exact ⟨getBit_setBitOne_self st.out a hout, nth_set_self _ _ _ hel, rfl⟩
  · intro hneg2
    rw [erasureStep, if_neg he, if_neg (by omega : ¬ erasureVotes G st.out st.erasures a = 0)]
    rw [if_neg (by omega : ¬ erasureVotes G st.out st.erasures a > 0)]
    exact ⟨getBit_clearBit_self st.out a hout, nth_set_self _ _ _ hel, rfl⟩
  · intro hzero
    rw [erasureStep, if_neg he, if_pos (by omega : erasureVotes G st.out st.erasures a = 0)]

/-- Witness for C4: a two-variable toy with one check joining observed
variable 0 (set to 1) and punctured variable 8 (erased); the check has
no other erasure and odd observed parity, so the vote total is +1 and
the step fixes bit 8 to 1. -/
theorem erasure_step_spec_witness :
    (0 < specVotes wGera [128, 0] (List.replicate 8 0 ++ List.replicate 8 1) 8 →
      getBit (erasureStep wGera
        ⟨[128, 0], List.replicate 8 0 ++ List.replicate 8 1, 0⟩ 8).out 8 = 1
      ∧ nth (erasureStep wGera
          ⟨[128, 0], List.replicate 8 0 ++ List.replicate 8 1, 0⟩ 8).erasures 8 = 0
      ∧ (erasureStep wGera
          ⟨[128, 0], List.replicate 8 0 ++ List.replicate 8 1, 0⟩ 8).fixed = 0 + 1)
    ∧ 0 < specVotes wGera [128, 0] (List.replicate 8 0 ++ List.replicate 8 1) 8 := by
  constructor
  · exact (erasure_step_spec wGera
      ⟨[128, 0], List.replicate 8 0 ++ List.replicate 8 1, 0⟩ 8
      (by decide) (by decide) (by decide)).2.1
  · decide

/-! ## Claim C2: self-correction in the variable-node pass -/

lemma sign_eq_one_iff (x : ℚ) : sign x = 1 ↔ 0 < x := by
  unfold sign
  split_ifs with h1 h2
  · exact iff_of_true rfl h1
  · exact iff_of_false (by norm_num) h1
  · exact iff_of_false (by norm_num) h1

lemma sign_eq_neg_one_iff (x : ℚ) : sign x = -1 ↔ x < 0 := by
  unfold sign
  split_ifs with h1 h2
  · exact iff_of_false (by norm_num) (by linarith)
  · exact iff_of_true rfl h2
  · exact iff_of_false (by norm_num) h2

lemma sign_eq_zero_iff (x : ℚ) : sign x = 0 ↔ x = 0 := by
  unfold sign
  split_ifs with h1 h2
  · exact iff_of_false (by norm_num) (ne_of_gt h1)
  · exact iff_of_false (by norm_num) (ne_of_lt h2)
  · exact iff_of_true rfl (by linarith)

lemma vsMono_chain (P : Params) (G : Graph) (hm : vsMono P G) :
    ∀ x y, x ≤ y → y ≤ P.n + P.p → nth G.vs x ≤ nth G.vs y := by
  intro x y hxy hy
  induction y with
  | zero =>
    have : x = 0 := by omega
    subst this
    exact Nat.le_refl _
  | succ z ih =>
    rcases Nat.lt_or_ge x (z + 1) with hlt | hge
    · exact Nat.le_trans (ih (by omega) (by omega)) (hm z (by omega))
    · have : x = z + 1 := by omega
      subst this
      exact Nat.le_refl _

lemma mpP1V_inner_length (P : Params) (G : Graph) (llrs u : List ℚ) (a : ℕ)
    (L : List ℕ) :
    ∀ v : List ℚ,
      (L.foldl (fun vv2 ai => vv2.set ai (mpVNew P G llrs u (qnth vv2 ai) a ai)) v).length
        = v.length := by
  induction L with
  | nil => intro v; rfl
  | cons x rest ih =>
    intro v
    rw [List.foldl_cons, ih, List.length_set]

lemma mpP1V_inner_outside (P : Params) (G : Graph) (llrs u : List ℚ) (a : ℕ)
    (L : List ℕ) :
    ∀ (v : List ℚ) (e : ℕ), e ∉ L →
      qnth (L.foldl (fun vv2 ai => vv2.set ai (mpVNew P G llrs u (qnth vv2 ai) a ai)) v) e
        = qnth v e := by
  induction L with
  | nil => intro v e _; rfl
  | cons x rest ih =>
    intro v e he
    rw [List.foldl_cons, ih _ _ (fun hh => he (List.mem_cons_of_mem _ hh)),
      qnth_set_ne _ _ (fun hh => he (by rw [← hh]; exact List.mem_cons_self x rest))]

lemma mpP1V_inner_at (P : Params) (G : Graph) (llrs u : List ℚ) (a : ℕ)
    (L : List ℕ) :
    ∀ (v : List ℚ) (e : ℕ), L.Nodup → e ∈ L → e < v.length →
      qnth (L.foldl (fun vv2 ai => vv2.set ai (mpVNew P G llrs u (qnth vv2 ai) a ai)) v) e
        = mpVNew P G llrs u (qnth v e) a e := by
  induction L with
  | nil => intro v e _ he; exact absurd he (List.not_mem_nil e)
  | cons x rest ih =>
    intro v e hnd he hlen
    rw [List.foldl_cons]
    by_cases hex : e = x
    · subst hex
      have hnotin : e ∉ rest := (List.nodup_cons.mp hnd).1
      rw [mpP1V_inner_outside P G llrs u a rest _ _ hnotin, qnth_set_self _ _ _ hlen]
    · rcases List.mem_cons.mp he with h1 | h2
      · exact absurd h1 hex
      · rw [ih _ _ (List.nodup_cons.mp hnd).2 h2 (by rw [List.length_set]; exact hlen),
          qnth_set_ne _ _ (fun hh => hex hh.symm)]

lemma mpP1V_nodes_outside (P : Params) (G : Graph) (llrs u : List ℚ)
    (L : List ℕ) :
    ∀ (v : List ℚ) (e : ℕ), (∀ a2 ∈ L, e ∉ varPositions G a2) →
      qnth (L.foldl
        (fun vv a2 => (varPositions G a2).foldl
          (fun vv2 ai => vv2.set ai (mpVNew P G llrs u (qnth vv2 ai) a2 ai)) vv) v) e
        = qnth v e := by
  induction L with
  | nil => intro v e _; rfl
  | cons x rest ih =>
    intro v e he
    rw [List.foldl_cons, ih _ _ (fun a2 h2 => he a2 (List.mem_cons_of_mem _ h2)),
      mpP1V_inner_outside P G llrs u x _ _ _ (he x (List.mem_cons_self x rest))]

lemma mpP1V_nodes_at (P : Params) (G : Graph) (llrs u : List ℚ) (a : ℕ)
    (L : List ℕ) :
    ∀ (v : List ℚ) (e : ℕ), a ∈ L → L.Nodup →
      (∀ a2 ∈ L, a2 ≠ a → e ∉ varPositions G a2) →
      e ∈ varPositions G a → e < v.length →
      qnth (L.foldl
        (fun vv a2 => (varPositions G a2).foldl
          (fun vv2 ai => vv2.set ai (mpVNew P G llrs u (qnth vv2 ai) a2 ai)) vv) v) e
        = mpVNew P G llrs u (qnth v e) a e := by
  induction L with
  | nil => intro v e ha; exact absurd ha (List.not_mem_nil a)
  | cons x rest ih =>
    intro v e ha hnd hdisj hmem hlen
    rw [List.foldl_cons]
    by_cases hax : a = x
    · subst hax
      have hnotin : a ∉ rest := (List.nodup_cons.mp hnd).1
      rw [mpP1V_nodes_outside P G llrs u rest _ _
        (fun a2 h2 => hdisj a2 (List.mem_cons_of_mem _ h2)
          (fun hcon => hnotin (hcon ▸ h2)))]
      exact mpP1V_inner_at P G llrs u a _ _ _
        (List.nodup_range' ..) hmem hlen
    · rcases List.mem_cons.mp ha with h1 | h2
      · exact absurd h1.symm (fun hh => hax hh.symm)
      · rw [ih _ _ h2 (List.nodup_cons.mp hnd).2
          (fun a2 ha2 hne => hdisj a2 (List.mem_cons_of_mem _ ha2) hne)
          hmem
          (by rw [mpP1V_inner_length]; exact hlen),
          mpP1V_inner_outside P G llrs u x _ _ _
            (hdisj x (List.mem_cons_self x rest) (fun hh => hax hh.symm))]

/-- Pointwise value of the variable-node pass: edge position e of
variable node a receives exactly the recomputed, self-corrected
message, with the previous value read from v[e]. -/
lemma mpP1V_getD (P : Params) (G : Graph) (llrs u : List ℚ) (v : List ℚ)
    (hmono : vsMono P G) (hlast : nth G.vs (P.n + P.p) = P.s)
    (hlen : v.length = P.s) (a : ℕ) (ha : a < P.n + P.p)
    (e : ℕ) (he1 : nth G.vs a ≤ e) (he2 : e < nth G.vs (a + 1)) :
    qnth (mpP1V P G llrs u v) e = mpVNew P G llrs u (qnth v e) a e := by
  have hmem : e ∈ varPositions G a := by
    rw [varPositions, List.mem_range'_1]
    have := vsMono_chain P G hmono a (a + 1) (by omega) (by omega)
    omega
  have helen : e < v.length := by
    rw [hlen, ← hlast]
    exact Nat.lt_of_lt_of_le he2 (vsMono_chain P G hmono (a + 1) (P.n + P.p) (by omega) (by omega))
  have hdisj : ∀ a2 ∈ List.range (P.n + P.p), a2 ≠ a → e ∉ varPositions G a2 := by
    intro a2 ha2 hne hcon
    rw [varPositions, List.mem_range'_1] at hcon
    rcases Nat.lt_or_ge a2 a with hlt | hge
    · have := vsMono_chain P G hmono (a2 + 1) a (by omega) (by omega)
      omega
    · have ha2lt := List.mem_range.mp ha2
      have ha2a : a + 1 ≤ a2 := by omega
      have := vsMono_chain P G hmono (a + 1) a2 ha2a (by omega)
      omega
  exact mpP1V_nodes_at P G llrs u a _ v e (List.mem_range.mpr ha)
    (List.nodup_range _) hdisj hmem helen

/-- C2: in every MP iteration, edge position e of variable node a is
updated by the self-correction rule: a nonzero previous message whose
sign differs from the recomputed raw message is reset to exactly 0,
and consequently no variable-to-check message ever moves from strictly
positive to strictly negative (or vice versa) across one iteration. -/
theorem mp_self_correction (P : Params) (G : Graph) (llrs u v : List ℚ)
    (out : List ℕ) (hmono : vsMono P G) (hlast : nth G.vs (P.n + P.p) = P.s)
    (hlen : v.length = P.s) (a : ℕ) (ha : a < P.n + P.p)
    (e : ℕ) (he1 : nth G.vs a ≤ e) (he2 : e < nth G.vs (a + 1)) :
    qnth (mpIter P G llrs (u, v, out)).2.1 e
        = selfCorrect (qnth v e) (mpVRaw P G llrs u a (nth G.vi e))
    ∧ (qnth v e ≠ 0 →
        sign (mpVRaw P G llrs u a (nth G.vi e)) ≠ sign (qnth v e) →
        qnth (mpIter P G llrs (u, v, out)).2.1 e = 0)
    ∧ ¬(0 < qnth v e ∧ qnth (mpIter P G llrs (u, v, out)).2.1 e < 0)
    ∧ ¬(qnth v e < 0 ∧ 0 < qnth (mpIter P G llrs (u, v, out)).2.1 e) := by
  have hpt : qnth (mpIter P G llrs (u, v, out)).2.1 e
      = mpVNew P G llrs u (qnth v e) a e :=
    mpP1V_getD P G llrs u v hmono hlast hlen a ha e he1 he2
  rw [hpt, mpVNew]
  refine ⟨rfl, ?_, ?_, ?_⟩
  · intro hne hsgn
    rw [selfCorrect, if_pos ⟨hne, hsgn⟩]
  · rintro ⟨hpos, hneg⟩
    rw [selfCorrect] at hneg
    split_ifs at hneg with hcond
    · exact absurd hneg (by norm_num)
    · rw [not_and_or, not_not] at hcond
      rcases hcond with h1 | h2
      · exact absurd h1 (by linarith)
      · rw [not_not] at h2
        have := (sign_eq_one_iff (qnth v e)).mpr hpos
        rw [this] at h2
        have := (sign_eq_one_iff (mpVRaw P G llrs u a (nth G.vi e))).mp h2
        linarith
  · rintro ⟨hneg, hpos⟩
    rw [selfCorrect] at hpos
    split_ifs at hpos with hcond
    · exact absurd hpos (by norm_num)
    · rw [not_and_or, not_not] at hcond
      rcases hcond with h1 | h2
      · exact absurd h1 (by linarith)
      · rw [not_not] at h2
        have := (sign_eq_neg_one_iff (qnth v e)).mpr hneg
        rw [this] at h2
        have := (sign_eq_neg_one_iff (mpVRaw P G llrs u a (nth G.vi e))).mp h2
        linarith

set_option maxRecDepth 40000 in
/-- Witness for C2 on the cycle graph: edge 0 of variable 0 has
previous message 1 while the incoming u message makes the recomputed
value −4, so the new message is reset to exactly 0. -/
theorem mp_self_correction_witness :
    qnth (mpIter wPcyc wGcyc wLlrsCyc (wUsc, wVsc, [0])).2.1 0
        = selfCorrect (qnth wVsc 0) (mpVRaw wPcyc wGcyc wLlrsCyc wUsc 0 (nth wGcyc.vi 0))
    ∧ (qnth wVsc 0 ≠ 0 →
        sign (mpVRaw wPcyc wGcyc wLlrsCyc wUsc 0 (nth wGcyc.vi 0)) ≠ sign (qnth wVsc 0) →
        qnth (mpIter wPcyc wGcyc wLlrsCyc (wUsc, wVsc, [0])).2.1 0 = 0)
    ∧ qnth wVsc 0 = 1
    ∧ mpVRaw wPcyc wGcyc wLlrsCyc wUsc 0 (nth wGcyc.vi 0) = -4
    ∧ qnth (mpIter wPcyc wGcyc wLlrsCyc (wUsc, wVsc, [0])).2.1 0 = 0 := by
  have h := mp_self_correction wPcyc wGcyc wLlrsCyc wUsc wVsc [0]
    (by decide) (by decide) (by with_unfolding_all rfl) 0 (by decide)
    0 (by decide) (by decide)
  have e1 : qnth wVsc 0 = (1 : ℚ) := by with_unfolding_all rfl
  have e2 : mpVRaw wPcyc wGcyc wLlrsCyc wUsc 0 (nth wGcyc.vi 0) = (-4 : ℚ) := by
    with_unfolding_all rfl
  refine ⟨h.1, h.2.1, e1, e2, ?_⟩
  apply h.2.1
  · rw [e1]
    norm_num
  · rw [e1, e2]
    norm_num [sign]

/-! ## Claim C1: BF rounds flip exactly the maximally violated bits -/

lemma length_incViolations (targets : List ℕ) :
    ∀ viol : List ℕ, (incViolations viol targets).length = viol.length := by
  induction targets with
  | nil => intro viol; rfl
  | cons a rest ih =>
    intro viol
    rw [incViolations, List.foldl_cons]
    rw [show (List.foldl (fun v a2 => v.set a2 ((nth v a2 + 1) % 256))
      (viol.set a ((nth viol a + 1) % 256)) rest)
      = incViolations (viol.set a ((nth viol a + 1) % 256)) rest from rfl]
    rw [ih, List.length_set]

lemma nth_incViolations (targets : List ℕ) :
    ∀ (viol : List ℕ) (x : ℕ), x < viol.length → nth viol x < 256 →
      nth (incViolations viol targets) x = (nth viol x + targets.count x) % 256 := by
  induction targets with
  | nil =>
    intro viol x _ hv
    rw [incViolations, List.foldl_nil, List.count_nil, Nat.add_zero,
      Nat.mod_eq_of_lt hv]
  | cons a rest ih =>
    intro viol x hx hv
    rw [incViolations, List.foldl_cons]
    rw [show (List.foldl (fun v a2 => v.set a2 ((nth v a2 + 1) % 256))
      (viol.set a ((nth viol a + 1) % 256)) rest)
      = incViolations (viol.set a ((nth viol a + 1) % 256)) rest from rfl]
    by_cases hax : a = x
    · subst hax
      have h2 := ih (viol.set a ((nth viol a + 1) % 256)) a
        (by rw [List.length_set]; exact hx)
        (by rw [nth_set_self _ _ _ hx]; exact Nat.mod_lt _ (by norm_num))
      rw [h2, nth_set_self _ _ _ hx, List.count_cons, if_pos (beq_self_eq_true a)]
      omega
    · have h2 := ih (viol.set a ((nth viol a + 1) % 256)) x
        (by rw [List.length_set]; exact hx)
        (by rw [nth_set_ne _ _ hax]; exact hv)
      rw [h2, nth_set_ne _ _ hax, List.count_cons, if_neg (by simp [hax])]
      omega

lemma violFold_getD (G : Graph) (out : List ℕ) (L : List ℕ) :
    ∀ (viol : List ℕ) (x : ℕ), x < viol.length → nth viol x < 256 →
      nth (L.foldl
        (fun viol i =>
          if checkParity G out i % 2 ≠ 0 then incViolations viol (checkSlice G i)
          else viol) viol) x
        = (nth viol x
            + ((L.map (fun i => if checkParity G out i % 2 ≠ 0
                then (checkSlice G i).count x else 0)).sum)) % 256 := by
  induction L with
  | nil =>
    intro viol x _ hv
    rw [List.foldl_nil, List.map_nil, List.sum_nil, Nat.add_zero, Nat.mod_eq_of_lt hv]
  | cons i rest ih =>
    intro viol x hx hv
    rw [List.foldl_cons, List.map_cons, List.sum_cons]
    by_cases hodd : checkParity G out i % 2 ≠ 0
    · rw [if_pos hodd, if_pos hodd]
      have h2 := ih (incViolations viol (checkSlice G i)) x
        (by rw [length_incViolations]; exact hx)
        (by rw [nth_incViolations _ _ _ hx hv]; exact Nat.mod_lt _ (by norm_num))
      rw [h2, nth_incViolations _ _ _ hx hv]
      omega
    · rw [if_neg hodd, if_neg hodd, ih viol x hx hv]
      omega

lemma specViolations_le_ciDegree (P : Params) (G : Graph) (out : List ℕ) (x : ℕ) :
    specViolations P G out x ≤ ciDegree P G x := by
  rw [specViolations, ciDegree]
  apply List.sum_le_sum
  intro i _
  split
  · exact Nat.le_refl _
  · exact Nat.zero_le _

lemma nth_computeViolations (P : Params) (G : Graph) (working out : List ℕ)
    (x : ℕ) (hx : x < P.n + P.p) (hdeg : ciDegree P G x < 256) :
    nth (computeViolations P G working out) x = specViolations P G out x := by
  rw [computeViolations]
  have hlen : x < (List.replicate (P.n + P.p) 0 ++ working.drop (P.n + P.p)).length := by
    rw [List.length_append, List.length_replicate]
    omega
  have h0 : nth (List.replicate (P.n + P.p) 0 ++ working.drop (P.n + P.p)) x = 0 :=
    nth_replicate_append _ _ _ hx
  rw [violFold_getD G out _ _ x hlen (by rw [h0]; norm_num), h0, Nat.zero_add]
  rw [show ((List.range (P.n - P.k + P.p)).map
    (fun i => if checkParity G out i % 2 ≠ 0 then (checkSlice G i).count x else 0)).sum
    = specViolations P G out x from rfl]
  exact Nat.mod_eq_of_lt (Nat.lt_of_le_of_lt (specViolations_le_ciDegree P G out x) hdeg)

lemma foldl_max_congr (f g : ℕ → ℕ) (L : List ℕ) (h : ∀ x ∈ L, f x = g x) :
    ∀ acc, L.foldl (fun m x => max m (f x)) acc = L.foldl (fun m x => max m (g x)) acc := by
  induction L with
  | nil => intro acc; rfl
  | cons i rest ih =>
    intro acc
    rw [List.foldl_cons, List.foldl_cons, h i (List.mem_cons_self i rest),
      ih (fun x hx => h x (List.mem_cons_of_mem _ hx))]

lemma maxViolations_eq_foldl_max (P : Params) (viol : List ℕ) :
    maxViolations P viol = (List.range (P.n + P.p)).foldl (fun m a => max m (nth viol a)) 0 := by
  rw [maxViolations]
  have : ∀ (L : List ℕ) (acc : ℕ),
      L.foldl (fun m a => if nth viol a > m then nth viol a else m) acc
        = L.foldl (fun m a => max m (nth viol a)) acc := by
    intro L
    induction L with
    | nil => intro acc; rfl
    | cons i rest ih =>
      intro acc
      rw [List.foldl_cons, List.foldl_cons, ih]
      congr 1
      rcases Nat.lt_or_ge acc (nth viol i) with h | h
      · rw [if_pos h, Nat.max_eq_right (le_of_lt h)]
      · rw [if_neg (by omega), Nat.max_eq_left h]
  exact this _ 0

lemma maxViolations_spec (P : Params) (G : Graph) (working out : List ℕ)
    (hdeg : ∀ x < P.n + P.p, ciDegree P G x < 256) :
    maxViolations P (computeViolations P G working out) = specMaxViolations P G out := by
  rw [maxViolations_eq_foldl_max, specMaxViolations]
  exact foldl_max_congr _ _ _
    (fun x hx => nth_computeViolations P G working out x (List.mem_range.mp hx)
      (hdeg x (List.mem_range.mp hx))) 0

lemma foldl_max_eq_zero_iff (f : ℕ → ℕ) (L : List ℕ) :
    ∀ acc, L.foldl (fun m x => max m (f x)) acc = 0 ↔ acc = 0 ∧ ∀ x ∈ L, f x = 0 := by
  induction L with
  | nil =>
    intro acc
    constructor
    · intro h; exact ⟨h, fun x hx => absurd hx (List.not_mem_nil x)⟩
    · intro h; exact h.1
  | cons i rest ih =>
    intro acc
    rw [List.foldl_cons, ih]
    constructor
    · rintro ⟨h1, h2⟩
      have hacc : acc = 0 ∧ f i = 0 := by
        constructor <;> omega
      refine ⟨hacc.1, fun x hx => ?_⟩
      rcases List.mem_cons.mp hx with he | hm
      · rw [he]; exact hacc.2
      · exact h2 x hm
    · rintro ⟨h1, h2⟩
      refine ⟨?_, fun x hx => h2 x (List.mem_cons_of_mem _ hx)⟩
      have := h2 i (List.mem_cons_self i rest)
      omega

lemma checkParity_eq_sum (G : Graph) (out : List ℕ) (i : ℕ) :
    checkParity G out i = ((checkSlice G i).map (getBit out)).sum := by
  rw [checkParity]
  have : ∀ (L : List ℕ) (acc : ℕ),
      L.foldl (fun pa a => pa + getBit out a) acc = acc + (L.map (getBit out)).sum := by
    intro L
    induction L with
    | nil => intro acc; simp
    | cons b rest ih =>
      intro acc
      rw [List.foldl_cons, List.map_cons, List.sum_cons, ih]
      omega
  rw [this]
  omega

lemma specMax_zero_iff (P : Params) (G : Graph) (out : List ℕ)
    (hci : ∀ i < P.n - P.k + P.p, ∀ b ∈ checkSlice G i, b < P.n + P.p) :
    specMaxViolations P G out = 0 ↔ allChecksOk P G out := by
  rw [specMaxViolations, foldl_max_eq_zero_iff]
  constructor
  · rintro ⟨-, hall⟩
    intro i hi
    by_contra hodd
    have hodd2 : checkParity G out i % 2 = 1 := by omega
    have hsum : ((checkSlice G i).map (getBit out)).sum % 2 = 1 := by
      rw [← checkParity_eq_sum]; exact hodd2
    have hne : checkSlice G i ≠ [] := by
      intro hnil
      rw [hnil] at hsum
      simp at hsum
    rcases List.exists_mem_of_ne_nil _ hne with ⟨b, hb⟩
    have hblt : b < P.n + P.p := hci i hi b hb
    have hcount : 0 < (checkSlice G i).count b := List.count_pos_iff.mpr hb
    have hterm : 0 < specViolations P G out b := by
      rw [specViolations]
      have hmem : (if checkParity G out i % 2 ≠ 0 then (checkSlice G i).count b else 0)
          ∈ (List.range (P.n - P.k + P.p)).map
            (fun i2 => if checkParity G out i2 % 2 ≠ 0 then (checkSlice G i2).count b else 0) :=
        List.mem_map_of_mem _ (List.mem_range.mpr hi)
      have hle := List.single_le_sum (fun x _ => Nat.zero_le x) _ hmem
      rw [if_pos (by omega)] at hle
      omega
    have := hall b (List.mem_range.mpr hblt)
    omega
  · intro hok
    refine ⟨rfl, fun a _ => ?_⟩
    rw [specViolations]
    apply List.sum_eq_zero
    intro y hy
    rcases List.mem_map.mp hy with ⟨i, hi, hrfl⟩
    rw [← hrfl, if_neg (by
      have := hok i (List.mem_range.mp hi)
      omega)]

lemma foldl_condFlip_length (cond : ℕ → Prop) [DecidablePred cond] (L : List ℕ) :
    ∀ o : List ℕ,
      (L.foldl (fun o2 i => if cond i then flipBit o2 i else o2) o).length = o.length := by
  induction L with
  | nil => intro o; rfl
  | cons i rest ih =>
    intro o
    rw [List.foldl_cons]
    by_cases hc : cond i
    · rw [if_pos hc, ih, length_flipBit]
    · rw [if_neg hc, ih]

lemma foldl_condFlip_outside (cond : ℕ → Prop) [DecidablePred cond] (L : List ℕ) :
    ∀ (o : List ℕ) (x : ℕ), x ∉ L →
      getBit (L.foldl (fun o2 i => if cond i then flipBit o2 i else o2) o) x
        = getBit o x := by
  induction L with
  | nil => intro o x _; rfl
  | cons i rest ih =>
    intro o x hx
    rw [List.foldl_cons, ih _ _ (fun hh => hx (List.mem_cons_of_mem _ hh))]
    by_cases hc : cond i
    · rw [if_pos hc, getBit_flipBit_ne o (fun hh => hx (by rw [hh]; exact List.mem_cons_self i rest))]
    · rw [if_neg hc]

lemma foldl_condFlip_getBit (cond : ℕ → Prop) [DecidablePred cond] (L : List ℕ)
    (hnd : L.Nodup) :
    ∀ (o : List ℕ) (x : ℕ), x / 8 < o.length →
      getBit (L.foldl (fun o2 i => if cond i then flipBit o2 i else o2) o) x
        = if x ∈ L ∧ cond x then 1 - getBit o x else getBit o x := by
  induction L with
  | nil =>
    intro o x _
    rw [List.foldl_nil, if_neg (fun hh => (List.not_mem_nil x) hh.1)]
  | cons i rest ih =>
    intro o x hx
    rw [List.foldl_cons]
    by_cases hix : x = i
    · subst hix
      have hnotin : x ∉ rest := (List.nodup_cons.mp hnd).1
      by_cases hcx : cond x
      · rw [if_pos hcx, foldl_condFlip_outside _ _ _ _ hnotin,
          getBit_flipBit_self o x hx,
          if_pos ⟨List.mem_cons_self x rest, hcx⟩]
      · rw [if_neg hcx, foldl_condFlip_outside _ _ _ _ hnotin,
          if_neg (fun hh : x ∈ x :: rest ∧ cond x => hcx hh.2)]
    · have hmem : (x ∈ i :: rest ∧ cond x) ↔ (x ∈ rest ∧ cond x) := by
        constructor
        · rintro ⟨hm, hc2⟩
          rcases List.mem_cons.mp hm with he | hm2
          · exact absurd he hix
          · exact ⟨hm2, hc2⟩
        · rintro ⟨hm, hc2⟩
          exact ⟨List.mem_cons_of_mem _ hm, hc2⟩
      by_cases hci2 : cond i
      · rw [if_pos hci2,
          ih (List.nodup_cons.mp hnd).2 _ x (by rw [length_flipBit]; exact hx),
          getBit_flipBit_ne o hix, if_congr hmem rfl rfl]
      · rw [if_neg hci2, ih (List.nodup_cons.mp hnd).2 _ x hx, if_congr hmem rfl rfl]

/-- C1: in every bit-flipping round the computed maximum violation
count is the specification-level maximum of the per-variable violation
counts; when it is nonzero the round flips exactly the variable nodes
whose violation count equals it (all ties together); and
`ldpc_decode_bf` returns true exactly when some round within the cap
starts from a state whose maximum violation count is zero, i.e. whose
codeword satisfies every parity check. -/
theorem bf_round_flips_and_success (code : LdpcCode) (hc : code ≠ LdpcCode.noCode)
    (G : Graph) (input output working : List ℕ)
    (hci : ∀ i < (ldpc_codes_get_params code).n - (ldpc_codes_get_params code).k
        + (ldpc_codes_get_params code).p,
      ∀ b ∈ checkSlice G i,
        b < (ldpc_codes_get_params code).n + (ldpc_codes_get_params code).p)
    (hdeg : ∀ x < (ldpc_codes_get_params code).n + (ldpc_codes_get_params code).p,
      ciDegree (ldpc_codes_get_params code) G x < 256) :
    (∀ s : List ℕ × List ℕ,
      bfMaxV (ldpc_codes_get_params code) G s
        = specMaxViolations (ldpc_codes_get_params code) G s.1)
    ∧ (∀ s : List ℕ × List ℕ,
      bfMaxV (ldpc_codes_get_params code) G s = 0
        ↔ allChecksOk (ldpc_codes_get_params code) G s.1)
    ∧ (∀ (s : List ℕ × List ℕ) (x : ℕ),
      s.1.length = ((ldpc_codes_get_params code).n + (ldpc_codes_get_params code).p) / 8 →
      specMaxViolations (ldpc_codes_get_params code) G s.1 ≠ 0 →
      (getBit (bfStep (ldpc_codes_get_params code) G s).1 x ≠ getBit s.1 x
        ↔ (x < (ldpc_codes_get_params code).n + (ldpc_codes_get_params code).p
            ∧ specViolations (ldpc_codes_get_params code) G s.1 x
                = specMaxViolations (ldpc_codes_get_params code) G s.1)))
    ∧ ((ldpc_decode_bf code G input output working).1 = true
        ↔ ∃ t < 20, allChecksOk (ldpc_codes_get_params code) G
            ((bfStep (ldpc_codes_get_params code) G)^[t]
              (bfInitState code G input output working)).1) := by
  have hmax : ∀ s : List ℕ × List ℕ,
      bfMaxV (ldpc_codes_get_params code) G s
        = specMaxViolations (ldpc_codes_get_params code) G s.1 :=
    fun s => maxViolations_spec _ G s.2 s.1 hdeg
  have hzero : ∀ s : List ℕ × List ℕ,
      bfMaxV (ldpc_codes_get_params code) G s = 0
        ↔ allChecksOk (ldpc_codes_get_params code) G s.1 := by
    intro s
    rw [hmax s]
    exact specMax_zero_iff _ G s.1 hci
  have hnp8 : ((ldpc_codes_get_params code).n + (ldpc_codes_get_params code).p) % 8 = 0 := by
    cases code <;> rfl
  refine ⟨hmax, hzero, ?_, ?_⟩
  · intro s x hslen hmne
    have hviol : ∀ y, y < (ldpc_codes_get_params code).n + (ldpc_codes_get_params code).p →
        nth (computeViolations (ldpc_codes_get_params code) G s.2 s.1) y
          = specViolations (ldpc_codes_get_params code) G s.1 y :=
      fun y hy => nth_computeViolations _ G s.2 s.1 y hy (hdeg y hy)
    rcases Nat.lt_or_ge x ((ldpc_codes_get_params code).n + (ldpc_codes_get_params code).p)
      with hxlt | hxge
    · have hx8 : x / 8 < s.1.length := by
        rw [hslen]; omega
      rw [show (bfStep (ldpc_codes_get_params code) G s).1
          = bfFlip (ldpc_codes_get_params code)
              (computeViolations (ldpc_codes_get_params code) G s.2 s.1)
              (maxViolations (ldpc_codes_get_params code)
                (computeViolations (ldpc_codes_get_params code) G s.2 s.1)) s.1 from rfl]
      rw [bfFlip, foldl_condFlip_getBit _ _ (List.nodup_range _) s.1 x hx8]
      have hmv : maxViolations (ldpc_codes_get_params code)
          (computeViolations (ldpc_codes_get_params code) G s.2 s.1)
          = specMaxViolations (ldpc_codes_get_params code) G s.1 :=
        maxViolations_spec _ G s.2 s.1 hdeg
      by_cases hcx : specViolations (ldpc_codes_get_params code) G s.1 x
          = specMaxViolations (ldpc_codes_get_params code) G s.1
      · rw [if_pos ⟨List.mem_range.mpr hxlt, by rw [hviol x hxlt, hmv]; exact hcx⟩]
        have := getBit_lt_two s.1 x
        constructor
        · intro _; exact ⟨hxlt, hcx⟩
        · intro _; omega
      · rw [if_neg (fun hh => hcx (by
          have := hh.2
          rw [hviol x hxlt, hmv] at this
          exact this))]
        constructor
        · intro hcon; exact absurd rfl hcon
        · rintro ⟨-, hcon⟩; exact absurd hcon hcx
    · rw [show (bfStep (ldpc_codes_get_params code) G s).1
          = bfFlip (ldpc_codes_get_params code)
              (computeViolations (ldpc_codes_get_params code) G s.2 s.1)
              (maxViolations (ldpc_codes_get_params code)
                (computeViolations (ldpc_codes_get_params code) G s.2 s.1)) s.1 from rfl]
      rw [bfFlip, foldl_condFlip_outside _ _ s.1 x (by
        intro hcon
        exact absurd (List.mem_range.mp hcon) (by omega))]
      constructor
      · intro hcon; exact absurd rfl hcon
      · rintro ⟨hcon, -⟩; omega
  · have hloop : (ldpc_decode_bf code G input output working).1
        = (bfLoop (ldpc_codes_get_params code) G
            (bfInitState code G input output working).1
            (bfInitState code G input output working).2 20).1 := by
      unfold ldpc_decode_bf bfInitState
      rw [if_neg hc]
      by_cases hp : 0 < (ldpc_codes_get_params code).p <;>
        simp only [hp, ite_true, ite_false, if_true, if_false]
    rw [hloop, bfLoop_true_iff, Prod.mk.eta]
    constructor
    · rintro ⟨t, ht, hz⟩
      exact ⟨t, ht, (hzero _).mp hz⟩
    · rintro ⟨t, ht, hz⟩
      exact ⟨t, ht, (hzero _).mpr hz⟩

set_option maxRecDepth 40000 in
/-- Witness for C1: the (128, 64) code identifier with the cycle graph
and the 0x0F input. -/
theorem bf_round_flips_and_success_witness :
    (∀ s : List ℕ × List ℕ,
      bfMaxV (ldpc_codes_get_params LdpcCode.n128k64) wGcyc s = 0
        ↔ allChecksOk (ldpc_codes_get_params LdpcCode.n128k64) wGcyc s.1)
    ∧ ((ldpc_decode_bf LdpcCode.n128k64 wGcyc [15] [0] [0]).1 = true
        ↔ ∃ t < 20, allChecksOk (ldpc_codes_get_params LdpcCode.n128k64) wGcyc
            ((bfStep (ldpc_codes_get_params LdpcCode.n128k64) wGcyc)^[t]
              (bfInitState LdpcCode.n128k64 wGcyc [15] [0] [0])).1) := by
  have h := bf_round_flips_and_success LdpcCode.n128k64 (by decide) wGcyc [15] [0] [0]
    (by decide) (by decide)
  exact ⟨h.2.1, h.2.2.2⟩

/-! ## Claim C9: zero-error input succeeds immediately -/

lemma nth_copyPrefix (input output : List ℕ) (m j : ℕ) (hj : j < m)
    (hin : m ≤ input.length) :
    nth (copyPrefix input output m) j = nth input j := by
  rw [copyPrefix, nth, List.getD_append _ _ _ _ (by
    rw [List.length_take]
    omega)]
  rw [List.getD_eq_getElem?_getD, List.getElem?_take_of_lt hj,
    ← List.getD_eq_getElem?_getD]
  rfl

lemma erasureStep_out_nth (G : Graph) (st : ErasureState) (a j : ℕ)
    (hj : j ≠ a / 8) : nth (erasureStep G st a).out j = nth st.out j := by
  rw [erasureStep]
  by_cases h1 : nth st.erasures a = 0
  · rw [if_pos h1]
  · rw [if_neg h1]
    show nth (if erasureVotes G st.out st.erasures a = 0 then st
      else { out := if erasureVotes G st.out st.erasures a > 0
               then setBitOne st.out a else clearBit st.out a
             erasures := st.erasures.set a 0
             fixed := st.fixed + 1 }).out j = nth st.out j
    by_cases h2 : erasureVotes G st.out st.erasures a = 0
    · rw [if_pos h2]
    · rw [if_neg h2]
      show nth (if erasureVotes G st.out st.erasures a > 0
        then setBitOne st.out a else clearBit st.out a) j = nth st.out j
      by_cases h3 : erasureVotes G st.out st.erasures a > 0
      · rw [if_pos h3]
        exact nth_set_ne _ _ (fun hh => hj hh.symm)
      · rw [if_neg h3]
        exact nth_set_ne _ _ (fun hh => hj hh.symm)

lemma erasureRound_out_nth (P : Params) (G : Graph) (j : ℕ)
    (h : ∀ a, P.n ≤ a → a < P.n + P.p → j ≠ a / 8) :
    ∀ st, nth (erasureRound P G st).out j = nth st.out j := by
  have key : ∀ (L : List ℕ) (st : ErasureState), (∀ a ∈ L, j ≠ a / 8) →
      nth (L.foldl (erasureStep G) st).out j = nth st.out j := by
    intro L
    induction L with
    | nil => intro st _; rfl
    | cons a rest ih =>
      intro st hL
      rw [List.foldl_cons, ih _ (fun a2 h2 => hL a2 (List.mem_cons_of_mem _ h2)),
        erasureStep_out_nth G st a j (hL a (List.mem_cons_self a rest))]
  intro st
  rw [erasureRound]
  exact key _ st (fun a ha => by
    rw [List.mem_range'_1] at ha
    exact h a ha.1 (by omega))

lemma erasureLoop_out_nth (P : Params) (G : Graph) (j : ℕ)
    (h : ∀ a, P.n ≤ a → a < P.n + P.p → j ≠ a / 8) :
    ∀ (fuel : ℕ) (st : ErasureState),
      nth (erasureLoop P G st fuel).2.out j = nth st.out j := by
  intro fuel
  induction fuel with
  | zero => intro st; rfl
  | succ n2 ih =>
    intro st
    rw [erasureLoop_succ]
    by_cases hf : st.fixed < P.p
    · rw [if_pos hf]
      rw [show ((erasureLoop P G (erasureRound P G st) n2).1 + 1,
          (erasureLoop P G (erasureRound P G st) n2).2).2
        = (erasureLoop P G (erasureRound P G st) n2).2 from rfl]
      rw [ih, erasureRound_out_nth P G j h]
    · rw [if_neg hf]

lemma ldpc_decode_erasures_out_nth (P : Params) (G : Graph)
    (out working : List ℕ) (j : ℕ) (hj : j < P.n / 8)
    (hout : P.n / 8 ≤ out.length) :
    nth (ldpc_decode_erasures P G out working).2.1 j = nth out j := by
  have h8 : ∀ a, P.n ≤ a → a < P.n + P.p → j ≠ a / 8 := by
    intro a ha1 _ hcon
    have : P.n / 8 ≤ a / 8 := Nat.div_le_div_right ha1
    omega
  rw [show (ldpc_decode_erasures P G out working).2.1
      = (erasureLoop P G (erasureInit P out working) 16).2.out from rfl]
  rw [erasureLoop_out_nth P G j h8]
  rw [show (erasureInit P out working).out
    = out.take (P.n / 8) ++ (List.replicate (P.p / 8) 0
        ++ out.drop (P.n / 8 + P.p / 8)) from by rw [erasureInit, ← List.append_assoc]]
  rw [nth, List.getD_append _ _ _ _ (by rw [List.length_take]; omega)]
  rw [List.getD_eq_getElem?_getD, List.getElem?_take_of_lt hj,
    ← List.getD_eq_getElem?_getD]
  rfl

lemma qnth_replicate_zero (s2 x : ℕ) : qnth (List.replicate s2 (0 : ℚ)) x = 0 := by
  rw [qnth, List.getD_eq_getElem?_getD, List.getElem?_replicate]
  split <;> rfl

lemma mpMarginal_zero_u (P : Params) (G : Graph) (llrs : List ℚ) (s2 a : ℕ) :
    mpMarginal P G llrs (List.replicate s2 0) a
      = (if a < P.n then qnth llrs a else 0) := by
  rw [mpMarginal]
  have inner : ∀ (L : List ℕ) (acc : ℚ),
      L.foldl (fun acc2 j =>
        match findTwinU G j a with
        | Option.none => acc2
        | Option.some jb => acc2 + qnth (List.replicate s2 0) jb) acc = acc := by
    intro L
    induction L with
    | nil => intro acc; rfl
    | cons j rest ih =>
      intro acc
      rw [List.foldl_cons]
      rcases hf : findTwinU G j a with _ | jb
      · exact ih acc
      · have hred : (match Option.some jb with
            | Option.none => acc
            | Option.some jb2 => acc + qnth (List.replicate s2 0) jb2)
            = acc + qnth (List.replicate s2 0) jb := rfl
        rw [hred, qnth_replicate_zero, add_zero]
        exact ih acc
  have outer : ∀ (L : List ℕ) (acc : ℚ),
      L.foldl (fun acc _ai =>
        (varSlice G a).foldl (fun acc2 j =>
          match findTwinU G j a with
          | Option.none => acc2
          | Option.some jb => acc2 + qnth (List.replicate s2 0) jb) acc) acc = acc := by
    intro L
    induction L with
    | nil => intro acc; rfl
    | cons x rest ih2 =>
      intro acc
      rw [List.foldl_cons, inner _ acc]
      exact ih2 acc
  exact outer _ _

lemma mpP1Out_getBit (P : Params) (G : Graph) (llrs u : List ℚ) (out : List ℕ)
    (x : ℕ) (hx : x < P.n + P.p) (hnp8 : (P.n + P.p) % 8 = 0) :
    getBit (mpP1Out P G llrs u out) x
      = (if mpMarginal P G llrs u x ≤ 0 then 1 else 0) := by
  rw [mpP1Out]
  have hx8 : x / 8 < (P.n + P.p) / 8 := by omega
  have hlen : x / 8 < (List.replicate ((P.n + P.p) / 8) 0
      ++ out.drop ((P.n + P.p) / 8)).length := by
    rw [List.length_append, List.length_replicate]
    omega
  rw [foldl_condSet_getBit _ _ _ x hlen]
  have hbase : getBit (List.replicate ((P.n + P.p) / 8) 0
      ++ out.drop ((P.n + P.p) / 8)) x = 0 := by
    rw [getBit_eq_testBit, nth_replicate_append _ _ _ hx8]
    simp
  rw [hbase]
  by_cases hq : mpMarginal P G llrs u x ≤ 0
  · rw [if_pos ⟨List.mem_range.mpr hx, hq⟩, if_pos hq]
  · rw [if_neg (fun hh => hq hh.2), if_neg hq]

lemma allChecksOk_computeViolations (P : Params) (G : Graph)
    (working out : List ℕ) (hok : allChecksOk P G out) (x : ℕ) (hx : x < P.n + P.p) :
    nth (computeViolations P G working out) x = 0 := by
  rw [computeViolations]
  have hlen : x < (List.replicate (P.n + P.p) 0 ++ working.drop (P.n + P.p)).length := by
    rw [List.length_append, List.length_replicate]
    omega
  have h0 : nth (List.replicate (P.n + P.p) 0 ++ working.drop (P.n + P.p)) x = 0 :=
    nth_replicate_append _ _ _ hx
  rw [violFold_getD G out _ _ x hlen (by rw [h0]; norm_num), h0, Nat.zero_add]
  have : ((List.range (P.n - P.k + P.p)).map
      (fun i => if checkParity G out i % 2 ≠ 0 then (checkSlice G i).count x else 0)).sum
      = 0 := by
    apply List.sum_eq_zero
    intro y hy
    rcases List.mem_map.mp hy with ⟨i, hi, hrfl⟩
    rw [← hrfl, if_neg (by
      have := hok i (List.mem_range.mp hi)
      omega)]
  rw [this]

lemma allChecksOk_maxViolations (P : Params) (G : Graph)
    (working out : List ℕ) (hok : allChecksOk P G out) :
    maxViolations P (computeViolations P G working out) = 0 := by
  rw [maxViolations_eq_foldl_max, foldl_max_eq_zero_iff]
  exact ⟨rfl, fun x hx =>
    allChecksOk_computeViolations P G working out hok x (List.mem_range.mp hx)⟩

lemma bfLoop_immediate (P : Params) (G : Graph) (out w : List ℕ)
    (h : maxViolations P (computeViolations P G w out) = 0) :
    bfLoop P G out w 20 = (true, 0, out, computeViolations P G w out) := by
  rw [show (20 : ℕ) = 19 + 1 from rfl, bfLoop_succ, if_pos h]

lemma ldpc_decode_mp_eq (code : LdpcCode) (hc : code ≠ LdpcCode.noCode)
    (G : Graph) (llrs : List ℚ) (output : List ℕ) (workingq : List ℚ) :
    ldpc_decode_mp code G llrs output workingq
      = (let r := mpLoop (ldpc_codes_get_params code) G llrs
          (List.replicate (ldpc_codes_get_params code).s 0,
           List.replicate (ldpc_codes_get_params code).s 0, output) 20
        (r.1, r.2.1, r.2.2.2.2,
          r.2.2.1 ++ r.2.2.2.1
            ++ workingq.drop (2 * (ldpc_codes_get_params code).s))) := by
  unfold ldpc_decode_mp
  rw [if_neg hc]

lemma mpLoop_immediate (P : Params) (G : Graph) (llrs : List ℚ)
    (st : List ℚ × List ℚ × List ℕ)
    (h : mpParityOk P G (mpIter P G llrs st).2.2 = true) :
    mpLoop P G llrs st 20 = (true, 0, mpIter P G llrs st) := by
  rw [show (20 : ℕ) = 19 + 1 from rfl, mpLoop_succ, if_pos h]

lemma getBit_congr_byte (b1 b2 : List ℕ) (x : ℕ)
    (h : nth b1 (x / 8) = nth b2 (x / 8)) : getBit b1 x = getBit b2 x := by
  rw [getBit, getBit, h]

/-- C9: decoding an error-free observation succeeds immediately.  For
BF: if the codeword entering the flip loop (the received bits, with
punctured bits resolved by the erasure phase when p > 0) satisfies all
parity checks, `ldpc_decode_bf` returns true with zero flip rounds
counted, the output equal to that codeword, and the received n bits
unchanged.  For MP: if the hard decisions of the first iteration
satisfy all checks, `ldpc_decode_mp` returns true during that first
iteration with reported count 0 (the count is 0-based); and when the
LLRs come from `hard_to_llrs` the first iteration's hard output
reproduces the received bits exactly. -/
theorem zero_error_immediate_success (code : LdpcCode) (hc : code ≠ LdpcCode.noCode)
    (G : Graph) (input output working : List ℕ) (llrs : List ℚ)
    (workingq : List ℚ) (r : List ℕ) (llrs0 : List ℚ)
    (hin : (ldpc_codes_get_params code).n / 8 ≤ input.length) :
    (allChecksOk (ldpc_codes_get_params code) G
        (bfInitState code G input output working).1 →
      (ldpc_decode_bf code G input output working).1 = true
      ∧ (ldpc_decode_bf code G input output working).2.1
          = (if 0 < (ldpc_codes_get_params code).p
             then (ldpc_decode_erasures (ldpc_codes_get_params code) G
               (copyPrefix input output ((ldpc_codes_get_params code).n / 8))
               working).1
             else 0)
      ∧ (ldpc_decode_bf code G input output working).2.2.1
          = (bfInitState code G input output working).1
      ∧ (∀ x < (ldpc_codes_get_params code).n,
          getBit (ldpc_decode_bf code G input output working).2.2.1 x
            = getBit input x))
    ∧ (mpParityOk (ldpc_codes_get_params code) G
        (mpIter (ldpc_codes_get_params code) G llrs
          (List.replicate (ldpc_codes_get_params code).s 0,
           List.replicate (ldpc_codes_get_params code).s 0, output)).2.2 = true →
      (ldpc_decode_mp code G llrs output workingq).1 = true
      ∧ (ldpc_decode_mp code G llrs output workingq).2.1 = 0
      ∧ (ldpc_decode_mp code G llrs output workingq).2.2.1
          = (mpIter (ldpc_codes_get_params code) G llrs
              (List.replicate (ldpc_codes_get_params code).s 0,
               List.replicate (ldpc_codes_get_params code).s 0, output)).2.2)
    ∧ (∀ x < (ldpc_codes_get_params code).n,
        (ldpc_codes_get_params code).n ≤ llrs0.length →
        getBit (mpIter (ldpc_codes_get_params code) G
          (ldpc_decode_hard_to_llrs code r llrs0)
          (List.replicate (ldpc_codes_get_params code).s 0,
           List.replicate (ldpc_codes_get_params code).s 0, output)).2.2 x
          = getBit r x) := by
  have hn8 : (ldpc_codes_get_params code).n % 8 = 0 := by cases code <;> rfl
  have hnp8 : ((ldpc_codes_get_params code).n + (ldpc_codes_get_params code).p) % 8 = 0 := by
    cases code <;> rfl
  refine ⟨?_, ?_, ?_⟩
  · intro hok
    have hmv := allChecksOk_maxViolations (ldpc_codes_get_params code) G
      (bfInitState code G input output working).2
      (bfInitState code G input output working).1 hok
    have hloopeq := bfLoop_immediate (ldpc_codes_get_params code) G
      (bfInitState code G input output working).1
      (bfInitState code G input output working).2 hmv
    have hbf : ldpc_decode_bf code G input output working
        = (true,
          (if 0 < (ldpc_codes_get_params code).p
           then (ldpc_decode_erasures (ldpc_codes_get_params code) G
             (copyPrefix input output ((ldpc_codes_get_params code).n / 8))
             working).1
           else 0) + 0,
          (bfInitState code G input output working).1,
          computeViolations (ldpc_codes_get_params code) G
            (bfInitState code G input output working).2
            (bfInitState code G input output working).1) := by
      unfold ldpc_decode_bf
      rw [if_neg hc]
      unfold bfInitState at hloopeq ⊢
      by_cases hp : 0 < (ldpc_codes_get_params code).p
      · simp only [hp, ite_true, if_true] at hloopeq ⊢
        rw [hloopeq]
      · simp only [hp, ite_false, if_false] at hloopeq ⊢
        rw [hloopeq]
    refine ⟨by rw [hbf], by rw [hbf]; exact Nat.add_zero _, by rw [hbf], ?_⟩
    intro x hx
    rw [hbf]
    show getBit (bfInitState code G input output working).1 x = getBit input x
    have hx8 : x / 8 < (ldpc_codes_get_params code).n / 8 := by omega
    have hcopy : nth (copyPrefix input output ((ldpc_codes_get_params code).n / 8)) (x / 8)
        = nth input (x / 8) :=
      nth_copyPrefix input output _ _ hx8 hin
    unfold bfInitState
    by_cases hp : 0 < (ldpc_codes_get_params code).p <;>
      simp only [hp, ite_true, ite_false, if_true, if_false]
    · apply getBit_congr_byte
      rw [ldpc_decode_erasures_out_nth (ldpc_codes_get_params code) G _ working
        (x / 8) hx8 (by
          rw [copyPrefix, List.length_append, List.length_take]
          omega)]
      exact hcopy
    · exact getBit_congr_byte _ _ x hcopy
  · intro hok
    have hloopeq := mpLoop_immediate (ldpc_codes_get_params code) G llrs
      (List.replicate (ldpc_codes_get_params code).s 0,
       List.replicate (ldpc_codes_get_params code).s 0, output) hok
    have hmp : ldpc_decode_mp code G llrs output workingq
        = (true, 0,
          (mpIter (ldpc_codes_get_params code) G llrs
            (List.replicate (ldpc_codes_get_params code).s 0,
             List.replicate (ldpc_codes_get_params code).s 0, output)).2.2,
          (mpIter (ldpc_codes_get_params code) G llrs
            (List.replicate (ldpc_codes_get_params code).s 0,
             List.replicate (ldpc_codes_get_params code).s 0, output)).1
          ++ (mpIter (ldpc_codes_get_params code) G llrs
            (List.replicate (ldpc_codes_get_params code).s 0,
             List.replicate (ldpc_codes_get_params code).s 0, output)).2.1
          ++ workingq.drop (2 * (ldpc_codes_get_params code).s)) := by
      rw [ldpc_decode_mp_eq code hc G llrs output workingq, hloopeq]
    exact ⟨by rw [hmp], by rw [hmp], by rw [hmp]⟩
  · intro x hx hlen0
    rw [show (mpIter (ldpc_codes_get_params code) G
        (ldpc_decode_hard_to_llrs code r llrs0)
        (List.replicate (ldpc_codes_get_params code).s 0,
         List.replicate (ldpc_codes_get_params code).s 0, output)).2.2
      = mpP1Out (ldpc_codes_get_params code) G
          (ldpc_decode_hard_to_llrs code r llrs0)
          (List.replicate (ldpc_codes_get_params code).s 0) output from rfl]
    rw [mpP1Out_getBit _ G _ _ output x (by omega) hnp8,
      mpMarginal_zero_u, if_pos hx]
    have hv := hard_to_llrs_ber_getD code hc r llrs0 log005 x hx (by omega)
    rw [ldpc_decode_hard_to_llrs, hv]
    have hneg : log005 < 0 := by norm_num [log005]
    have hb := getBit_lt_two r x
    rcases Nat.lt_or_ge (getBit r x) 1 with h0 | h1
    · have h0e : getBit r x = 0 := by omega
      rw [h0e, if_neg (by norm_num : ¬ (0 : ℕ) = 1),
        if_neg (by linarith : ¬ -log005 ≤ 0)]
    · have h1e : getBit r x = 1 := by omega
      rw [h1e, if_pos rfl, if_pos (le_of_lt hneg)]

set_option maxRecDepth 100000 in
/-- Witness for C9: the (128, 64) code with the cycle graph, the
all-zero received word for BF, and all-ones LLRs for MP (both valid:
every parity check is satisfied immediately). -/
theorem zero_error_immediate_success_witness :
    ((ldpc_decode_bf LdpcCode.n128k64 wGcyc (List.replicate 16 0)
        (List.replicate 16 0) (List.replicate 128 0)).1 = true
      ∧ (∀ x < (ldpc_codes_get_params LdpcCode.n128k64).n,
          getBit (ldpc_decode_bf LdpcCode.n128k64 wGcyc (List.replicate 16 0)
            (List.replicate 16 0) (List.replicate 128 0)).2.2.1 x
            = getBit (List.replicate 16 0) x))
    ∧ ((ldpc_decode_mp LdpcCode.n128k64 wGcyc (List.replicate 128 1)
        (List.replicate 16 0) (List.replicate 1024 0)).1 = true
      ∧ (ldpc_decode_mp LdpcCode.n128k64 wGcyc (List.replicate 128 1)
          (List.replicate 16 0) (List.replicate 1024 0)).2.1 = 0) := by
  have h := zero_error_immediate_success LdpcCode.n128k64 (by decide) wGcyc
    (List.replicate 16 0) (List.replicate 16 0) (List.replicate 128 0)
    (List.replicate 128 1) (List.replicate 1024 0) (List.replicate 16 0)
    (List.replicate 128 0) (by decide)
  have hbfok : allChecksOk (ldpc_codes_get_params LdpcCode.n128k64) wGcyc
      (bfInitState LdpcCode.n128k64 wGcyc (List.replicate 16 0)
        (List.replicate 16 0) (List.replicate 128 0)).1 := by decide
  have hmpok : mpParityOk (ldpc_codes_get_params LdpcCode.n128k64) wGcyc
      (mpIter (ldpc_codes_get_params LdpcCode.n128k64) wGcyc (List.replicate 128 1)
        (List.replicate (ldpc_codes_get_params LdpcCode.n128k64).s 0,
         List.replicate (ldpc_codes_get_params LdpcCode.n128k64).s 0,
         List.replicate 16 0)).2.2 = true := by
    with_unfolding_all rfl
  have h1 := h.1 hbfok
  have h2 := h.2.1 hmpok
  exact ⟨⟨h1.1, h1.2.2.2⟩, ⟨h2.1, h2.2.1⟩⟩

/-! ## Claim C3: check-to-variable message magnitudes -/

set_option maxRecDepth 100000 in
/-- Counterexample to C3 as stated: on a well-formed length-8 cycle
graph (all data-model invariants hold and every check has degree 2)
with unit-magnitude LLRs, the MP loop returns success during its
second iteration, and the final check-to-variable message u[0] is 2,
strictly exceeding the maximum initial LLR magnitude 1. -/
theorem mp_u_bound_counterexample :
    vsMono wPcyc wGcyc ∧ csMono wPcyc wGcyc ∧ ciInRange wPcyc wGcyc
    ∧ hasTwinV wPcyc wGcyc ∧ checkDegreesAtLeastTwo wPcyc wGcyc
    ∧ nth wGcyc.vs 0 = 0 ∧ nth wGcyc.vs (wPcyc.n + wPcyc.p) = wPcyc.s
    ∧ nth wGcyc.cs 0 = 0
    ∧ nth wGcyc.cs (wPcyc.n - wPcyc.k + wPcyc.p) = wPcyc.s
    ∧ maxAbsLlr wPcyc wLlrsCyc = 1
    ∧ (mpLoop wPcyc wGcyc wLlrsCyc
        (List.replicate 16 0, List.replicate 16 0, [0]) 20).1 = true
    ∧ (mpLoop wPcyc wGcyc wLlrsCyc
        (List.replicate 16 0, List.replicate 16 0, [0]) 20).2.1 = 1
    ∧ qnth (mpLoop wPcyc wGcyc wLlrsCyc
        (List.replicate 16 0, List.replicate 16 0, [0]) 20).2.2.1 0 = 2
    ∧ ¬ |qnth (mpLoop wPcyc wGcyc wLlrsCyc
          (List.replicate 16 0, List.replicate 16 0, [0]) 20).2.2.1 0|
        ≤ maxAbsLlr wPcyc wLlrsCyc := by
  refine ⟨by decide, by decide, by decide, by decide, by decide, by decide,
    by decide, by decide, by decide, by with_unfolding_all rfl, ?_, ?_, ?_, ?_⟩
  · with_unfolding_all rfl
  · with_unfolding_all rfl
  · with_unfolding_all rfl
  · have h2 : qnth (mpLoop wPcyc wGcyc wLlrsCyc
        (List.replicate 16 0, List.replicate 16 0, [0]) 20).2.2.1 0 = 2 := by
      with_unfolding_all rfl
    have hm : maxAbsLlr wPcyc wLlrsCyc = 1 := by with_unfolding_all rfl
    rw [h2, hm]
    norm_num

lemma selfCorrect_zero_prev (raw : ℚ) : selfCorrect 0 raw = raw := by
  rw [selfCorrect, if_neg]
  rintro ⟨h, -⟩
  exact h rfl

lemma mpVRaw_zero_u (P : Params) (G : Graph) (llrs : List ℚ) (s2 a i : ℕ) :
    mpVRaw P G llrs (List.replicate s2 0) a i
      = (if a < P.n then qnth llrs a else 0) := by
  rw [mpVRaw]
  have inner : ∀ (L : List ℕ) (acc : ℚ),
      L.foldl (fun acc j =>
        match findTwinU G j a with
        | Option.none => acc
        | Option.some jb => if j ≠ i then acc + qnth (List.replicate s2 0) jb else acc)
        acc = acc := by
    intro L
    induction L with
    | nil => intro acc; rfl
    | cons j rest ih =>
      intro acc
      rw [List.foldl_cons]
      rcases hf : findTwinU G j a with _ | jb
      · exact ih acc
      · by_cases hji : j ≠ i
        · have hred : (match Option.some jb with
              | Option.none => acc
              | Option.some jb2 => if j ≠ i then acc + qnth (List.replicate s2 0) jb2
                  else acc)
              = acc + qnth (List.replicate s2 0) jb := by
            show (if j ≠ i then acc + qnth (List.replicate s2 0) jb else acc)
              = acc + qnth (List.replicate s2 0) jb
            rw [if_pos hji]
          rw [hred, qnth_replicate_zero, add_zero]
          exact ih acc
        · have hred : (match Option.some jb with
              | Option.none => acc
              | Option.some jb2 => if j ≠ i then acc + qnth (List.replicate s2 0) jb2
                  else acc)
              = acc := by
            show (if j ≠ i then acc + qnth (List.replicate s2 0) jb else acc) = acc
            rw [if_neg hji]
          rw [hred]
          exact ih acc
  exact inner _ _

lemma v1_getD (P : Params) (G : Graph) (llrs : List ℚ)
    (hvs : vsMono P G) (hvslast : nth G.vs (P.n + P.p) = P.s)
    (a : ℕ) (ha : a < P.n + P.p) (e : ℕ)
    (he1 : nth G.vs a ≤ e) (he2 : e < nth G.vs (a + 1)) :
    qnth (mpP1V P G llrs (List.replicate P.s 0) (List.replicate P.s 0)) e
      = (if a < P.n then qnth llrs a else 0) := by
  rw [mpP1V_getD P G llrs _ _ hvs hvslast (List.length_replicate _ _) a ha e he1 he2,
    mpVNew, qnth_replicate_zero, selfCorrect_zero_prev, mpVRaw_zero_u]

lemma csMono_chain (P : Params) (G : Graph) (hm : csMono P G) :
    ∀ x y, x ≤ y → y ≤ P.n - P.k + P.p → nth G.cs x ≤ nth G.cs y := by
  intro x y hxy hy
  induction y with
  | zero =>
    have : x = 0 := by omega
    subst this
    exact Nat.le_refl _
  | succ z ih =>
    rcases Nat.lt_or_ge x (z + 1) with hlt | hge
    · exact Nat.le_trans (ih (by omega) (by omega)) (hm z (by omega))
    · have : x = z + 1 := by omega
      subst this
      exact Nat.le_refl _

lemma mpP2U_inner_length (G : Graph) (v2 : List ℚ) (i : ℕ) (L : List ℕ) :
    ∀ u : List ℚ,
      (L.foldl (fun uu2 ia => uu2.set ia (mpUNew G v2 i (nth G.ci ia))) u).length
        = u.length := by
  induction L with
  | nil => intro u; rfl
  | cons x rest ih =>
    intro u
    rw [List.foldl_cons, ih, List.length_set]

lemma mpP2U_inner_outside (G : Graph) (v2 : List ℚ) (i : ℕ) (L : List ℕ) :
    ∀ (u : List ℚ) (e : ℕ), e ∉ L →
      qnth (L.foldl (fun uu2 ia => uu2.set ia (mpUNew G v2 i (nth G.ci ia))) u) e
        = qnth u e := by
  induction L with
  | nil => intro u e _; rfl
  | cons x rest ih =>
    intro u e he
    rw [List.foldl_cons, ih _ _ (fun hh => he (List.mem_cons_of_mem _ hh)),
      qnth_set_ne _ _ (fun hh => he (by rw [← hh]; exact List.mem_cons_self x rest))]

lemma mpP2U_inner_at (G : Graph) (v2 : List ℚ) (i : ℕ) (L : List ℕ) :
    ∀ (u : List ℚ) (e : ℕ), L.Nodup → e ∈ L → e < u.length →
      qnth (L.foldl (fun uu2 ia => uu2.set ia (mpUNew G v2 i (nth G.ci ia))) u) e
        = mpUNew G v2 i (nth G.ci e) := by
  induction L with
  | nil => intro u e _ he; exact absurd he (List.not_mem_nil e)
  | cons x rest ih =>
    intro u e hnd he hlen
    rw [List.foldl_cons]
    by_cases hex : e = x
    · subst hex
      have hnotin : e ∉ rest := (List.nodup_cons.mp hnd).1
      rw [mpP2U_inner_outside G v2 i rest _ _ hnotin, qnth_set_self _ _ _ hlen]
    · rcases List.mem_cons.mp he with h1 | h2
      · exact absurd h1 hex
      · rw [ih _ _ (List.nodup_cons.mp hnd).2 h2 (by rw [List.length_set]; exact hlen)]

lemma mpP2U_nodes_outside (G : Graph) (v2 : List ℚ) (L : List ℕ) :
    ∀ (u : List ℚ) (e : ℕ), (∀ i2 ∈ L, e ∉ checkPositions G i2) →
      qnth (L.foldl
        (fun uu i2 => (checkPositions G i2).foldl
          (fun uu2 ia => uu2.set ia (mpUNew G v2 i2 (nth G.ci ia))) uu) u) e
        = qnth u e := by
  induction L with
  | nil => intro u e _; rfl
  | cons x rest ih =>
    intro u e he
    rw [List.foldl_cons, ih _ _ (fun i2 h2 => he i2 (List.mem_cons_of_mem _ h2)),
      mpP2U_inner_outside G v2 x _ _ _ (he x (List.mem_cons_self x rest))]

lemma mpP2U_nodes_at (G : Graph) (v2 : List ℚ) (i : ℕ) (L : List ℕ) :
    ∀ (u : List ℚ) (e : ℕ), i ∈ L → L.Nodup →
      (∀ i2 ∈ L, i2 ≠ i → e ∉ checkPositions G i2) →
      e ∈ checkPositions G i → e < u.length →
      qnth (L.foldl
        (fun uu i2 => (checkPositions G i2).foldl
          (fun uu2 ia => uu2.set ia (mpUNew G v2 i2 (nth G.ci ia))) uu) u) e
        = mpUNew G v2 i (nth G.ci e) := by
  induction L with
  | nil => intro u e hi; exact absurd hi (List.not_mem_nil i)
  | cons x rest ih =>
    intro u e hi hnd hdisj hmem hlen
    rw [List.foldl_cons]
    by_cases hix : i = x
    · subst hix
      have hnotin : i ∉ rest := (List.nodup_cons.mp hnd).1
      rw [mpP2U_nodes_outside G v2 rest _ _
        (fun i2 h2 => hdisj i2 (List.mem_cons_of_mem _ h2)
          (fun hcon => hnotin (hcon ▸ h2)))]
      exact mpP2U_inner_at G v2 i _ _ _ (List.nodup_range' ..) hmem hlen
    · rcases List.mem_cons.mp hi with h1 | h2
      · exact absurd h1 hix
      · rw [ih _ _ h2 (List.nodup_cons.mp hnd).2
          (fun i2 hi2 hne => hdisj i2 (List.mem_cons_of_mem _ hi2) hne)
          hmem
          (by rw [mpP2U_inner_length]; exact hlen)]

/-- Pointwise value of the check-node pass: edge position e of check i
receives the min-sum message computed from v. -/
lemma mpP2U_getD (P : Params) (G : Graph) (v2 u : List ℚ)
    (hcs : csMono P G) (hcslast : nth G.cs (P.n - P.k + P.p) = P.s)
    (hulen : u.length = P.s) (i : ℕ) (hi : i < P.n - P.k + P.p)
    (e : ℕ) (he1 : nth G.cs i ≤ e) (he2 : e < nth G.cs (i + 1)) :
    qnth (mpP2U P G v2 u) e = mpUNew G v2 i (nth G.ci e) := by
  have hmem : e ∈ checkPositions G i := by
    rw [checkPositions, List.mem_range'_1]
    have := csMono_chain P G hcs i (i + 1) (by omega) (by omega)
    omega
  have helen : e < u.length := by
    rw [hulen, ← hcslast]
    exact Nat.lt_of_lt_of_le he2
      (csMono_chain P G hcs (i + 1) (P.n - P.k + P.p) (by omega) (by omega))
  have hdisj : ∀ i2 ∈ List.range (P.n - P.k + P.p), i2 ≠ i →
      e ∉ checkPositions G i2 := by
    intro i2 hi2 hne hcon
    rw [checkPositions, List.mem_range'_1] at hcon
    have hi2lt := List.mem_range.mp hi2
    rcases Nat.lt_or_ge i2 i with hlt | hge
    · have := csMono_chain P G hcs (i2 + 1) i (by omega) (by omega)
      omega
    · have := csMono_chain P G hcs (i + 1) i2 (by omega) (by omega)
      omega
  exact mpP2U_nodes_at G v2 i _ u e (List.mem_range.mpr hi)
    (List.nodup_range _) hdisj hmem helen

lemma foldl_max_init_le (f : ℕ → ℚ) (L : List ℕ) :
    ∀ acc : ℚ, acc ≤ L.foldl (fun m x => max m (f x)) acc := by
  induction L with
  | nil => intro acc; exact le_refl acc
  | cons i rest ih =>
    intro acc
    rw [List.foldl_cons]
    exact le_trans (le_max_left acc (f i)) (ih _)

lemma le_foldl_max (f : ℕ → ℚ) (L : List ℕ) :
    ∀ (acc : ℚ) (a : ℕ), a ∈ L → f a ≤ L.foldl (fun m x => max m (f x)) acc := by
  induction L with
  | nil => intro acc a ha; exact absurd ha (List.not_mem_nil a)
  | cons i rest ih =>
    intro acc a ha
    rw [List.foldl_cons]
    rcases List.mem_cons.mp ha with he | hm
    · subst he
      exact le_trans (le_max_right acc (f a)) (foldl_max_init_le f rest _)
    · exact ih _ a hm

lemma maxAbsLlr_nonneg (P : Params) (llrs : List ℚ) : 0 ≤ maxAbsLlr P llrs :=
  foldl_max_init_le _ _ 0

lemma abs_llr_le_maxAbs (P : Params) (llrs : List ℚ) (a : ℕ) (ha : a < P.n) :
    |qnth llrs a| ≤ maxAbsLlr P llrs :=
  le_foldl_max _ _ 0 a (List.mem_range.mpr ha)

lemma abs_sign_le_one (x : ℚ) : |sign x| ≤ 1 := by
  unfold sign
  split_ifs <;> norm_num

lemma mpUNew_fold_abs1 (G : Graph) (v : List ℚ) (i a : ℕ) (L : List ℕ) :
    ∀ acc : ℚ × ℚ, |acc.1| ≤ 1 →
      |(L.foldl
        (fun (acc : ℚ × ℚ) b =>
          if b = a then acc
          else
            match findTwinV G i b with
            | Option.none => acc
            | Option.some bj =>
              (acc.1 * sign (qnth v bj),
               if |qnth v bj| < acc.2 then |qnth v bj| else acc.2)) acc).1| ≤ 1 := by
  induction L with
  | nil => intro acc h; exact h
  | cons b rest ih =>
    intro acc h
    rw [List.foldl_cons]
    apply ih
    by_cases hba : b = a
    · rw [if_pos hba]; exact h
    · rw [if_neg hba]
      rcases hf : findTwinV G i b with _ | bj
      · exact h
      · show |acc.1 * sign (qnth v bj)| ≤ 1
        rw [abs_mul]
        calc |acc.1| * |sign (qnth v bj)| ≤ 1 * 1 :=
              mul_le_mul h (abs_sign_le_one _) (abs_nonneg _) (by norm_num)
          _ = 1 := by norm_num

lemma mpUNew_fold_min_le (G : Graph) (v : List ℚ) (i a : ℕ) (L : List ℕ) :
    ∀ acc : ℚ × ℚ,
      (L.foldl
        (fun (acc : ℚ × ℚ) b =>
          if b = a then acc
          else
            match findTwinV G i b with
            | Option.none => acc
            | Option.some bj =>
              (acc.1 * sign (qnth v bj),
               if |qnth v bj| < acc.2 then |qnth v bj| else acc.2)) acc).2 ≤ acc.2 := by
  induction L with
  | nil => intro acc; exact le_refl _
  | cons b rest ih =>
    intro acc
    rw [List.foldl_cons]
    refine le_trans (ih _) ?_
    by_cases hba : b = a
    · rw [if_pos hba]
    · rw [if_neg hba]
      rcases hf : findTwinV G i b with _ | bj
      · exact le_refl _
      · show (if |qnth v bj| < acc.2 then |qnth v bj| else acc.2) ≤ acc.2
        split
        · next hlt => exact le_of_lt hlt
        · exact le_refl _

lemma mpUNew_fold_min_nonneg (G : Graph) (v : List ℚ) (i a : ℕ) (L : List ℕ) :
    ∀ acc : ℚ × ℚ, 0 ≤ acc.2 →
      0 ≤ (L.foldl
        (fun (acc : ℚ × ℚ) b =>
          if b = a then acc
          else
            match findTwinV G i b with
            | Option.none => acc
            | Option.some bj =>
              (acc.1 * sign (qnth v bj),
               if |qnth v bj| < acc.2 then |qnth v bj| else acc.2)) acc).2 := by
  induction L with
  | nil => intro acc h; exact h
  | cons b rest ih =>
    intro acc h
    rw [List.foldl_cons]
    apply ih
    by_cases hba : b = a
    · rw [if_pos hba]; exact h
    · rw [if_neg hba]
      rcases hf : findTwinV G i b with _ | bj
      · exact h
      · show 0 ≤ (if |qnth v bj| < acc.2 then |qnth v bj| else acc.2)
        split
        · exact abs_nonneg _
        · exact h

lemma mpUNew_fold_visits (G : Graph) (v : List ℚ) (i a : ℕ) (L : List ℕ)
    (b : ℕ) (hb : b ∈ L) (hba : b ≠ a) (bj : ℕ)
    (hf : findTwinV G i b = Option.some bj) :
    ∀ acc : ℚ × ℚ,
      (L.foldl
        (fun (acc : ℚ × ℚ) b =>
          if b = a then acc
          else
            match findTwinV G i b with
            | Option.none => acc
            | Option.some bj =>
              (acc.1 * sign (qnth v bj),
               if |qnth v bj| < acc.2 then |qnth v bj| else acc.2)) acc).2
        ≤ |qnth v bj| := by
  induction L with
  | nil => exact absurd hb (List.not_mem_nil b)
  | cons x rest ih =>
    intro acc
    rw [List.foldl_cons]
    by_cases hbx : b = x
    · subst hbx
      refine le_trans (mpUNew_fold_min_le G v i a rest _) ?_
      rw [if_neg hba, hf]
      show (if |qnth v bj| < acc.2 then |qnth v bj| else acc.2) ≤ |qnth v bj|
      split
      · exact le_refl _
      · next hge => exact le_of_not_lt hge
    · rcases List.mem_cons.mp hb with he | hm
      · exact absurd he hbx
      · exact ih hm _

lemma mpUNew_abs_le (G : Graph) (v : List ℚ) (i a : ℕ) (M : ℚ) (hM : 0 ≤ M)
    (hvb : ∀ b ∈ checkSlice G i, ∀ bj, findTwinV G i b = Option.some bj →
      |qnth v bj| ≤ M)
    (hex : ∃ b ∈ checkSlice G i, b ≠ a ∧ ∃ bj, findTwinV G i b = Option.some bj) :
    |mpUNew G v i a| ≤ M := by
  obtain ⟨b, hbmem, hba, bj, hf⟩ := hex
  have h1 := mpUNew_fold_abs1 G v i a (checkSlice G i) (1, fltMax) (by norm_num)
  have h2 := mpUNew_fold_min_nonneg G v i a (checkSlice G i) (1, fltMax)
    (by rw [show ((1 : ℚ), fltMax).2 = fltMax from rfl, fltMax]; norm_num)
  have h3 := mpUNew_fold_visits G v i a (checkSlice G i) b hbmem hba bj hf (1, fltMax)
  have hM2 := hvb b hbmem bj hf
  show |((checkSlice G i).foldl
      (fun (acc : ℚ × ℚ) b =>
        if b = a then acc
        else
          match findTwinV G i b with
          | Option.none => acc
          | Option.some bj =>
            (acc.1 * sign (qnth v bj),
             if |qnth v bj| < acc.2 then |qnth v bj| else acc.2)) (1, fltMax)).1
    * ((checkSlice G i).foldl
      (fun (acc : ℚ × ℚ) b =>
        if b = a then acc
        else
          match findTwinV G i b with
          | Option.none => acc
          | Option.some bj =>
            (acc.1 * sign (qnth v bj),
             if |qnth v bj| < acc.2 then |qnth v bj| else acc.2)) (1, fltMax)).2| ≤ M
  rw [abs_mul, abs_of_nonneg h2]
  calc _ ≤ 1 * ((checkSlice G i).foldl
      (fun (acc : ℚ × ℚ) b =>
        if b = a then acc
        else
          match findTwinV G i b with
          | Option.none => acc
          | Option.some bj =>
            (acc.1 * sign (qnth v bj),
             if |qnth v bj| < acc.2 then |qnth v bj| else acc.2)) (1, fltMax)).2 :=
      mul_le_mul h1 (le_refl _) h2 (by norm_num)
    _ ≤ M := by
      have h4 := le_trans h3 hM2
      push_cast
      linarith

/-- Amended C3, proved: after the FIRST MP iteration from the zeroed
message state, every check-to-variable message satisfies
`|u[e]| ≤ max |llrs[a]|` (for a well-formed graph whose checks all
have at least two distinct neighbours).  The counterexample above
shows the bound can already fail after the second iteration, so the
claim's "after any iteration" does not hold. -/
theorem mp_u_bound_first_iteration (P : Params) (G : Graph) (llrs : List ℚ)
    (out0 : List ℕ)
    (hvs : vsMono P G) (hvslast : nth G.vs (P.n + P.p) = P.s)
    (hcs : csMono P G) (hcslast : nth G.cs (P.n - P.k + P.p) = P.s)
    (hci : ciInRange P G) (htwin : hasTwinV P G)
    (hdeg2 : checkDegreesAtLeastTwo P G)
    (hnodup : ∀ i < P.n - P.k + P.p, (checkSlice G i).Nodup)
    (i : ℕ) (hi : i < P.n - P.k + P.p)
    (e : ℕ) (he1 : nth G.cs i ≤ e) (he2 : e < nth G.cs (i + 1)) :
    |qnth (mpIter P G llrs
      (List.replicate P.s 0, List.replicate P.s 0, out0)).1 e|
      ≤ maxAbsLlr P llrs := by
  have hstep : (mpIter P G llrs
      (List.replicate P.s 0, List.replicate P.s 0, out0)).1
      = mpP2U P G (mpP1V P G llrs (List.replicate P.s 0) (List.replicate P.s 0))
          (List.replicate P.s 0) := rfl
  rw [hstep, mpP2U_getD P G _ _ hcs hcslast (List.length_replicate _ _) i hi e he1 he2]
  have hM : 0 ≤ maxAbsLlr P llrs := maxAbsLlr_nonneg P llrs
  have hvb : ∀ b ∈ checkSlice G i, ∀ bj, findTwinV G i b = Option.some bj →
      |qnth (mpP1V P G llrs (List.replicate P.s 0) (List.replicate P.s 0)) bj|
        ≤ maxAbsLlr P llrs := by
    intro b hbmem bj hf
    obtain ⟨eb, hebmem, hebval⟩ := List.mem_map.mp hbmem
    have heb_lt : eb < P.s := by
      rw [checkPositions, List.mem_range'_1] at hebmem
      have := csMono_chain P G hcs (i + 1) (P.n - P.k + P.p) (by omega) (by omega)
      omega
    have hblt : b < P.n + P.p := by
      rw [← hebval]
      exact hci eb heb_lt
    have hbjmem : bj ∈ varPositions G b := List.mem_of_find?_eq_some hf
    rw [varPositions, List.mem_range'_1] at hbjmem
    have hbound : nth G.vs b ≤ nth G.vs (b + 1) := hvs b hblt
    have hv1 := v1_getD P G llrs hvs hvslast b hblt bj hbjmem.1 (by omega)
    rw [hv1]
    by_cases hbn : b < P.n
    · rw [if_pos hbn]
      exact abs_llr_le_maxAbs P llrs b hbn
    · rw [if_neg hbn]
      rw [abs_zero]
      exact hM
  have hex : ∃ b ∈ checkSlice G i, b ≠ nth G.ci e
      ∧ ∃ bj, findTwinV G i b = Option.some bj := by
    have hlen2 := hdeg2 i hi
    have hemem : e ∈ checkPositions G i := by
      rw [checkPositions, List.mem_range'_1]
      have := csMono_chain P G hcs i (i + 1) (by omega) (by omega)
      omega
    set e2 := if e = nth G.cs i then nth G.cs i + 1 else nth G.cs i with he2def
    have he2mem : e2 ∈ checkPositions G i := by
      rw [checkPositions, List.mem_range'_1, he2def]
      split <;> omega
    have he2ne : e2 ≠ e := by
      rw [he2def]
      split
      · next heq => omega
      · next heq => exact fun hcon => heq hcon.symm
    refine ⟨nth G.ci e2, List.mem_map_of_mem _ he2mem, ?_, ?_⟩
    · intro hcon
      exact he2ne (List.inj_on_of_nodup_map (hnodup i hi) he2mem hemem hcon)
    · obtain ⟨e3, he3mem, he3val⟩ := htwin i hi e2 he2mem
      have hsome : (findTwinV G i (nth G.ci e2)).isSome := by
        rw [findTwinV, List.find?_isSome]
        exact ⟨e3, he3mem, by simp [he3val]⟩
      rcases hfs : findTwinV G i (nth G.ci e2) with _ | bj
      · rw [hfs] at hsome
        exact absurd hsome (by simp)
      · exact ⟨bj, rfl⟩
  exact mpUNew_abs_le G _ i (nth G.ci e) (maxAbsLlr P llrs) hM hvb hex

/-- Witness for the amended C3 on the cycle graph: after the first
iteration the message at edge position 0 is bounded by the maximum
LLR magnitude. -/
theorem mp_u_bound_first_iteration_witness :
    |qnth (mpIter wPcyc wGcyc wLlrsCyc
      (List.replicate wPcyc.s 0, List.replicate wPcyc.s 0, [0])).1 0|
      ≤ maxAbsLlr wPcyc wLlrsCyc :=
  mp_u_bound_first_iteration wPcyc wGcyc wLlrsCyc [0]
    (by decide) (by decide) (by decide) (by decide) (by decide) (by decide)
    (by decide) (by decide) 0 (by decide) 0 (by decide) (by decide)

end Labrador
